import Mathlib

/-!
# Sonar coverage report: a shallow embedding of `report/sonarcoverage.js`

The report turns istanbul coverage records into a Sonar generic-coverage XML document.
This file embeds the functions of `src/report/sonarcoverage.js` as Lean definitions and proves
properties of them.

Conventions of the embedding

* A JavaScript object used as a mapping is the list of its own enumerable properties; for the
  mappings of a coverage record the list is in the order in which `Object.keys` enumerates
  them.  `List.lookup` is the property read `o[k]` (`none` is `undefined`), `setProp` is the
  assignment `o[k] = v`.
* `Object.keys(o).forEach(function (k) { ... o[k] ... })` is a left fold over the properties,
  the pair `kv` standing for the key `k` and the value `o[k]`.
* Line numbers, hit counts and array lengths are natural numbers.  A line-number key is the
  decimal numeral of the line, so two keys are the same string exactly when the numbers agree.
* `writer.println(s)` appends `s` to the list of lines written so far; functions that write
  take the writer state and return the new one.
* `covered.length / dataArray.length * 100` is IEEE-754 binary64 arithmetic; it is modelled by
  explicit round-to-nearest-even on integers (`round64`).
* Functions of other packages that the report calls (`path.relative`, `path.join`,
  `utils.incrementIgnoredTotals`, `collector.fileCoverageFor`) are parameters, and so is the
  root of the tree that the `TreeSummarizer` builds.
* `utils.incrementIgnoredTotals` throws on some malformed records.  `addFileStats` and `walk`
  embed the runs in which it returns; `addFileStatsE` embeds `addFileStats` with a call that
  may throw.
* A call of `writeReport` returns the list of its events; the writer object is an event
  emitter that counts the `done` listeners registered on it (`EventWriter`).
-/

namespace SonarCoverage

/-! ## JavaScript numbers -/

/-- A non-negative JavaScript number: `NaN`, `+Infinity`, or the finite value `m * 2 ^ e`. -/
inductive JSNumber where
  | nan
  | inf
  | finite (m : ℕ) (e : ℤ)
deriving DecidableEq

namespace JSNumber

/-- The rational value of a finite number; `none` for `NaN` and `Infinity`. -/
def toRat? : JSNumber → Option ℚ
  | nan => none
  | inf => none
  | finite m e => some ((m : ℚ) * (2 : ℚ) ^ e)

end JSNumber

/-- Helper of `log2`: at most `fuel` halvings. -/
def log2Aux : ℕ → ℕ → ℕ
  | 0, _ => 0
  | fuel + 1, n => if 2 ≤ n then log2Aux fuel (n / 2) + 1 else 0

/-- Position of the leading binary digit of `n` (and `0` for `n = 0`). -/
def log2 (n : ℕ) : ℕ := log2Aux n n

/-- Numerator and denominator of `(n / d) / 2 ^ s`. -/
def scale (n d : ℕ) (s : ℤ) : ℕ × ℕ :=
  if 0 ≤ s then (n, d * 2 ^ s.toNat) else (n * 2 ^ (-s).toNat, d)

/-- The integer `k` with `2 ^ k ≤ n / d < 2 ^ (k + 1)`, for positive `n` and `d`. -/
def floorLog2 (n d : ℕ) : ℤ :=
  let k : ℤ := (log2 n : ℤ) - (log2 d : ℤ)
  let p := scale n d k
  if p.2 ≤ p.1 then k else k - 1

/-- The integer nearest to `n / d`, a tie going to the even neighbour. -/
def roundHalfEven (n d : ℕ) : ℕ :=
  let f := n / d
  let r := n % d
  if 2 * r < d then f else if d < 2 * r then f + 1 else if f % 2 = 0 then f else f + 1

/-- The binary64 number nearest to the rational `n / d` (`d > 0`), ties to even: 53 significant
bits, the quantum never below `2 ^ (-1074)`, and `Infinity` from `2 ^ 1024` on. -/
def round64 (n d : ℕ) : JSNumber :=
  if n = 0 then .finite 0 0 else
    let e : ℤ := max (floorLog2 n d - 52) (-1074)
    let p := scale n d e
    let m := roundHalfEven p.1 p.2
    if 0 ≤ e ∧ 2 ^ 1024 ≤ m * 2 ^ e.toNat then .inf else .finite m e

/-- The JavaScript quotient `x / y` of two array lengths (exact integers below `2 ^ 32`). -/
def jsDiv (x y : ℕ) : JSNumber :=
  if y = 0 then (if x = 0 then .nan else .inf) else round64 x y

/-- The JavaScript product `x * y` of a non-negative number and a non-negative integer. -/
def jsMul (x : JSNumber) (y : ℕ) : JSNumber :=
  match x with
  | .nan => .nan
  | .inf => if y = 0 then .nan else .inf
  | .finite m e => let p := scale (m * y) 1 (-e); round64 p.1 p.2

/-! ## Coverage records -/

/-- Metadata of one branch in `branchMap`; the report reads only `line`. -/
structure BranchMeta where
  line : ℕ
deriving DecidableEq

/-- One file's coverage record, with the fields the report reads: `l` (line number to hit
count), `branchMap` (branch id to metadata) and `b` (branch id to the hit counts of its
outcomes). -/
structure FileCoverage where
  l : List (ℕ × ℕ)
  branchMap : List (String × BranchMeta)
  b : List (String × List ℕ)
deriving DecidableEq

/-- The per-line object `{ covered, total, coverage }` built by `branchCoverageByLine`. -/
structure LineBranchStats where
  covered : ℕ
  total : ℕ
  coverage : JSNumber
deriving DecidableEq

/-- The assignment `o[k] = v`: an existing property keeps its place, a new one is added at
the end.  For the object `ret` of `branchCoverageByLine`, whose keys are line numbers,
JavaScript enumerates the keys in ascending order instead; the order is not observed, since
the second loop treats every key alike and `addFileStats` only reads `branchByLine[k]`. -/
def setProp {κ α : Type} [DecidableEq κ] : List (κ × α) → κ → α → List (κ × α)
  | [], k, v => [(k, v)]
  | (k', v') :: o, k, v => if k' = k then (k', v) :: o else (k', v') :: setProp o k v

/-- The body of the first `forEach` of `branchCoverageByLine`, for the branch id `kv.1`:
`ret[line] = ret[line] || []`, then `ret[line].push.apply(ret[line], branchData)`.
`apply` with an `undefined` argument list calls `push` without arguments. -/
def poolBranch (branches : List (String × List ℕ)) (ret : List (ℕ × List ℕ))
    (kv : String × BranchMeta) : List (ℕ × List ℕ) :=
  let line := kv.2.line
  let branchData := branches.lookup kv.1
  let ret := setProp ret line ((ret.lookup line).getD [])
  setProp ret line ((ret.lookup line).getD [] ++ branchData.getD [])

/-- The body of the second `forEach` of `branchCoverageByLine`: the object that replaces the
pooled array `dataArray`. -/
def lineStats (dataArray : List ℕ) : LineBranchStats :=
  let covered := dataArray.filter (fun item => decide (item > 0))
  let coverage := jsMul (jsDiv covered.length dataArray.length) 100
  { covered := covered.length, total := dataArray.length, coverage := coverage }

/-- Embedding of `branchCoverageByLine(fileCoverage)`. -/
def branchCoverageByLine (fileCoverage : FileCoverage) : List (ℕ × LineBranchStats) :=
  let branchMap := fileCoverage.branchMap
  let branches := fileCoverage.b
  let ret := branchMap.foldl (poolBranch branches) []
  ret.map (fun kd => (kd.1, lineStats kd.2))

/-- The record of the specification's aggregation example: branch map
`{b1: line 5, b2: line 5, b3: line 7}` with hits `{b1: [1,0], b2: [2], b3: [0,0]}`. -/
def exampleRecord : FileCoverage :=
  { l := [(5, 1), (6, 0), (7, 3)]
    branchMap := [("b1", ⟨5⟩), ("b2", ⟨5⟩), ("b3", ⟨7⟩)]
    b := [("b1", [1, 0]), ("b2", [2]), ("b3", [0, 0])] }

/-- A record whose only branch has an empty hit array. -/
def emptyHitsRecord : FileCoverage :=
  { l := [(5, 1)], branchMap := [("b1", ⟨5⟩)], b := [("b1", [])] }

/-- A record whose only branch id has no entry in `b`. -/
def missingHitsRecord : FileCoverage :=
  { l := [(5, 1)], branchMap := [("b1", ⟨5⟩)], b := [] }

/-- The record `fileCoverage` with the branch id `k` removed from `branchMap`. -/
def removeBranch (fileCoverage : FileCoverage) (k : String) : FileCoverage :=
  { fileCoverage with branchMap := fileCoverage.branchMap.filter (fun kv => decide (kv.1 ≠ k)) }

/-- The hit counts pooled for line `L`: the hit arrays of the branch ids whose line is `L`,
in `branchMap` order, an id without a hit array contributing nothing. -/
def pooled (fileCoverage : FileCoverage) (L : ℕ) : List ℕ :=
  (fileCoverage.branchMap.filter (fun kv => decide (kv.2.line = L))).flatMap
    (fun kv => (fileCoverage.b.lookup kv.1).getD [])

/-! ## Writing the report -/

/-- The lines handed to `writer.println` so far, oldest first. -/
abbrev Writer := List String

/-- Embedding of `writer.println(s)`. -/
def println (writer : Writer) (s : String) : Writer := writer ++ [s]

/-- Embedding of `quote(thing)`; string concatenation converts `thing` to a string. -/
def quote {α : Type} [ToString α] (thing : α) : String := "\"" ++ toString thing ++ "\""

/-- Embedding of `attr(n, v)`. -/
def attr {α : Type} [ToString α] (n : String) (v : α) : String :=
  " " ++ n ++ "=" ++ quote v ++ " "

/-- A node of the summary tree: `kind`, the result of `fullPath()`, whether `packageMetrics`
is present (truthy), and `children`.  `metrics` is read into a variable that is never used. -/
inductive Node where
  | mk (kind : String) (fullPath : String) (packageMetrics : Bool) (children : List Node)

namespace Node

/-- `node.kind` -/
def kind : Node → String
  | mk k _ _ _ => k

/-- `node.fullPath()` -/
def fullPath : Node → String
  | mk _ p _ _ => p

/-- Truthiness of `node.packageMetrics`. -/
def packageMetrics : Node → Bool
  | mk _ _ m _ => m

/-- `node.children` -/
def children : Node → List Node
  | mk _ _ _ c => c

end Node

/-- Functions of other packages that the report calls: `path.relative` of Node.js and
`utils.incrementIgnoredTotals` of istanbul. -/
structure Externals where
  relative : String → String → String
  incrementIgnoredTotals : FileCoverage → FileCoverage

/-- The coverage accessor: `collector.fileCoverageFor(key)`. -/
structure Collector where
  fileCoverageFor : String → FileCoverage

/-- The string written for the property `kv` of `lines` by the `forEach` body of
`addFileStats`: `kv.1` is the key `k` and `kv.2` the hit count `lines[k]`. -/
def lineToCover (branchByLine : List (ℕ × LineBranchStats)) (kv : ℕ × ℕ) : String :=
  let k := kv.1
  let str := "\t\t<lineToCover" ++ attr "lineNumber" k ++
    attr "covered" (if kv.2 = 0 then false else true)
  let branchDetail := branchByLine.lookup k
  let str :=
    match branchDetail with
    | none => str ++ attr "branch" false
    | some d =>
      str ++ (attr "branch" true ++ attr "branchesToCover" d.total ++
        attr "coveredBranches" d.covered)
  str ++ "/>"

/-- Embedding of `addFileStats(node, fileCoverage, writer, projectRoot)` for a call of
`utils.incrementIgnoredTotals` that returns; `addFileStatsE` is the embedding in which that
call may throw. -/
def addFileStats (ext : Externals) (node : Node) (fileCoverage : FileCoverage)
    (writer : Writer) (projectRoot : String) : Writer :=
  let writer := println writer
    ("\t<file" ++ attr "path" (ext.relative projectRoot node.fullPath) ++ ">")
  let fileCoverage := ext.incrementIgnoredTotals fileCoverage
  let branchByLine := branchCoverageByLine fileCoverage
  let lines := fileCoverage.l
  let writer := lines.foldl (fun writer kv => println writer (lineToCover branchByLine kv)) writer
  println writer "\t</file>"

/-- The opening tag of the root element. -/
def coverageOpen : String := "<coverage version=\"1\">"

/-- The closing tag of the root element. -/
def coverageClose : String := "</coverage>"

mutual
/-- Embedding of `walk(node, collector, writer, level, projectRoot)`. -/
def walk (ext : Externals) (collector : Collector) (node : Node) (writer : Writer)
    (level : ℕ) (projectRoot : String) : Writer :=
  match node with
  | .mk _ _ packageMetrics children =>
    let writer := if level = 0 then println writer coverageOpen else writer
    let writer :=
      if packageMetrics then
        (children.filter (fun child => child.kind != "dir")).foldl
          (fun writer child =>
            addFileStats ext child (collector.fileCoverageFor child.fullPath) writer projectRoot)
          writer
      else writer
    let writer := walkDirs ext collector children writer (level + 1) projectRoot
    if level = 0 then println writer coverageClose else writer
/-- The loop `node.children.filter(kind === 'dir').forEach(walk(child, ..., level, ...))` of
`walk`, by recursion on the list of children. -/
def walkDirs (ext : Externals) (collector : Collector) (children : List Node)
    (writer : Writer) (level : ℕ) (projectRoot : String) : Writer :=
  match children with
  | [] => writer
  | child :: rest =>
    if child.kind = "dir" then
      walkDirs ext collector rest (walk ext collector child writer level projectRoot)
        level projectRoot
    else walkDirs ext collector rest writer level projectRoot
end

/-- The string `s` begins with a tab character. -/
def startsWithTab (s : String) : Prop := s.data.head? = some '\t'

instance (s : String) : Decidable (startsWithTab s) :=
  inferInstanceAs (Decidable (s.data.head? = some '\t'))

/-- The text `name` occurs somewhere in the string `line`. -/
def mentions (name line : String) : Prop := name.data <:+: line.data

instance (name line : String) : Decidable (mentions name line) :=
  inferInstanceAs (Decidable (name.data <:+: line.data))

/-- Externals used in examples: paths are left as they are and no hit count is ignored. -/
def idExternals : Externals :=
  { relative := fun _ p => p, incrementIgnoredTotals := fun fc => fc }

/-- A collector that returns the example record for every file. -/
def exampleCollector : Collector := { fileCoverageFor := fun _ => exampleRecord }

/-- A file node. -/
def exampleFile : Node := .mk "file" "/p/a.js" false []

/-- A directory with one file and one subdirectory that holds one file. -/
def exampleTree : Node :=
  .mk "dir" "/p" true [exampleFile, .mk "dir" "/p/lib" true [.mk "file" "/p/lib/b.js" false []]]


/-! ## The files of a summary tree -/

/-- The children of `node` that `walk` hands to `addFileStats`: those whose kind is not
`dir`, in children order. -/
def fileChildren (node : Node) : List Node :=
  node.children.filter (fun child => child.kind != "dir")

/-- The children of `node` that `walk` recurses into: those of kind `dir`, in children
order. -/
def dirChildren (node : Node) : List Node :=
  node.children.filter (fun child => child.kind == "dir")

/-- The `<file>` block of the file node `child`: the lines that
`addFileStats(child, collector.fileCoverageFor(child.fullPath()), writer, projectRoot)`
writes. -/
def fileBlock (ext : Externals) (collector : Collector) (projectRoot : String)
    (child : Node) : List String :=
  addFileStats ext child (collector.fileCoverageFor child.fullPath) [] projectRoot

/-- The file nodes for which a call of `walk` on `node` itself (not a recursive call) writes a
block: its file children when it carries `packageMetrics`, none otherwise. -/
def ownFiles (node : Node) : List Node :=
  if node.packageMetrics then fileChildren node else []

mutual
/-- The nodes on which `walk` is called when it is started on `node`, in call order: `node`,
then the nodes visited from each child of kind `dir`. -/
def visited : Node → List Node
  | .mk kind fullPath packageMetrics children =>
    .mk kind fullPath packageMetrics children :: visitedDirs children
/-- The nodes visited from the children of kind `dir` in the list. -/
def visitedDirs : List Node → List Node
  | [] => []
  | child :: rest =>
    if child.kind = "dir" then visited child ++ visitedDirs rest else visitedDirs rest
end

/-- The file nodes for which `walk`, started on `node`, writes a block, in writing order:
the own files of every visited node. -/
def emittedFiles (node : Node) : List Node := (visited node).flatMap ownFiles

mutual
/-- All nodes of the tree under `node` (itself included) whose kind is not `dir`. -/
def allFiles : Node → List Node
  | .mk kind fullPath packageMetrics children =>
    if kind = "dir" then allFilesOfList children
    else .mk kind fullPath packageMetrics children :: allFilesOfList children
/-- All nodes of kind other than `dir` in the trees of the list. -/
def allFilesOfList : List Node → List Node
  | [] => []
  | child :: rest => allFiles child ++ allFilesOfList rest
end

mutual
/-- Shape of a summary tree: a node that is not a directory is a leaf. -/
def isSummaryTree : Node → Bool
  | .mk kind _ _ children =>
    (if kind = "dir" then true else children.isEmpty) && isSummaryForest children
/-- Every tree of the list has the shape of a summary tree. -/
def isSummaryForest : List Node → Bool
  | [] => true
  | child :: rest => isSummaryTree child && isSummaryForest rest
end

mutual
/-- Every directory of the tree that has a file as a direct child carries
`packageMetrics`. -/
def filesHavePackageMetrics : Node → Bool
  | .mk kind _ packageMetrics children =>
    (if kind = "dir" then
      (children.all (fun child => child.kind == "dir") || packageMetrics)
    else true) && forestHasPackageMetrics children
/-- The condition `filesHavePackageMetrics` for every tree of the list. -/
def forestHasPackageMetrics : List Node → Bool
  | [] => true
  | child :: rest => filesHavePackageMetrics child && forestHasPackageMetrics rest
end

/-- The number of written lines that open a `<file>` element. -/
def fileOpenCount (out : List String) : ℕ :=
  out.countP (fun s => decide ("\t<file".data <+: s.data))

/-- The tree of the specification's round-trip example: one directory with two files and one
subdirectory with one file. -/
def threeFileTree : Node :=
  .mk "dir" "/p" true
    [.mk "file" "/p/a.js" false [], .mk "file" "/p/b.js" false [],
      .mk "dir" "/p/lib" true [.mk "file" "/p/lib/c.js" false []]]

/-- A directory without `packageMetrics` that has a file and a subdirectory with a file. -/
def bareTree : Node :=
  .mk "dir" "/q" false
    [.mk "file" "/q/a.js" false [], .mk "dir" "/q/lib" true [.mk "file" "/q/lib/b.js" false []]]

/-! ## Further example records -/

/-- The example record with the branch ids listed in another order and the hit counts of `b1`
swapped. -/
def permutedExampleRecord : FileCoverage :=
  { l := [(5, 1), (6, 0), (7, 3)]
    branchMap := [("b3", ⟨7⟩), ("b1", ⟨5⟩), ("b2", ⟨5⟩)]
    b := [("b2", [2]), ("b1", [0, 1]), ("b3", [0, 0])] }

/-! ## The report object -/

/-- Modelled from the spec: the writer object, istanbul's `FileWriter` or a writer injected as
`opts.writer`, which is not part of this repository.  It is an event emitter with the
interface {write-to-path-with-callback, done/completion-signal}: `on('done', f)` registers the
listener `f`, `writeFile(path, callback)` calls `callback` once with a content writer, and
`done()` emits `done`, which calls every registered listener once.  The state kept here is the
number of `done` listeners that `writeReport` has registered on the writer. -/
structure EventWriter where
  doneListeners : ℕ
deriving DecidableEq

/-- The options object `opts` of the constructor; an absent property is `none`. -/
structure Options where
  dir : Option String
  file : Option String
  writer : Option EventWriter
deriving DecidableEq

/-- The object returned by `getDefaultConfig()`. -/
structure Config where
  file : String
deriving DecidableEq

/-- Embedding of `getDefaultConfig()`. -/
def getDefaultConfig : Config := { file := "sonar-coverage.xml" }

/-- The fields of a `SonarReport` object. -/
structure SonarReport where
  projectRoot : String
  dir : String
  file : String
  opts : Options
deriving DecidableEq

/-- The JavaScript expression `v || d` for an optional string `v`: `undefined` and the empty
string are falsy. -/
def jsOr (v : Option String) (d : String) : String :=
  match v with
  | none => d
  | some s => if s = "" then d else s

/-- Embedding of the constructor `SonarReport(opts)`; `cwd` is `process.cwd()` and an absent
`opts` is `none`. -/
def SonarReport.init (cwd : String) (opts : Option Options) : SonarReport :=
  let opts := opts.getD { dir := none, file := none, writer := none }
  let projectRoot := cwd
  { projectRoot := projectRoot
    dir := jsOr opts.dir projectRoot
    file := jsOr opts.file getDefaultConfig.file
    opts := opts }

/-- What a call of `writeReport` does, in order: the call of `writer.writeFile` with its path,
the lines printed to the content writer, the call of `writer.done()`, and the `done` events
that the report emits. -/
inductive Event where
  | writeFile (path : String)
  | println (line : String)
  | writerDone
  | reportDone
deriving DecidableEq

/-- Embedding of `writeReport(collector, sync)`.  `join` is `path.join`, `root` is the root of
the tree that the `TreeSummarizer` returns for the files of the collector.  The result is the
report after the call (an injected writer keeps the listener registered on it) and the events
of the call. -/
def writeReport (ext : Externals) (join : String → String → String) (report : SonarReport)
    (collector : Collector) (root : Node) : SonarReport × List Event :=
  let fileWriter : EventWriter := { doneListeners := 0 }
  let outputFile := join report.dir report.file
  let writer := report.opts.writer.getD fileWriter
  let projectRoot := report.projectRoot
  -- writer.on('done', function () { that.emit('done'); })
  let writer : EventWriter := { doneListeners := writer.doneListeners + 1 }
  -- writer.writeFile(outputFile, function (contentWriter) { walk(...); writer.done(); })
  let lines := walk ext collector root [] 0 projectRoot
  let events := Event.writeFile outputFile :: (lines.map Event.println ++
    (Event.writerDone :: List.replicate writer.doneListeners Event.reportDone))
  let report :=
    match report.opts.writer with
    | some _ => { report with opts := { report.opts with writer := some writer } }
    | none => report
  (report, events)

/-- The path of a file below the project root relative to the root, as `path.relative`
returns it: what follows the root and the separator. -/
def relativeBelow (projectRoot fullPath : String) : String :=
  ⟨fullPath.data.drop (projectRoot.data.length + 1)⟩

/-- Externals for files below the project root. -/
def posixExternals : Externals :=
  { relative := relativeBelow, incrementIgnoredTotals := fun fc => fc }

/-- A file whose path below the project root `/proj` holds an ampersand and a double
quote. -/
def reservedPathFile : Node := .mk "file" "/proj/R&D/a\"b.js" false []

/-- A report constructed with an injected writer that has no listener yet. -/
def injectedWriterReport : SonarReport :=
  SonarReport.init "/proj" (some { dir := none, file := none, writer := some ⟨0⟩ })

/-- The function `path.join` for two non-empty relative or absolute segments. -/
def joinSegments (dir file : String) : String := dir ++ "/" ++ file

/-! ## A library call that throws -/

/-- The library functions that `addFileStats` calls, for a call of
`utils.incrementIgnoredTotals` that may throw: `none` is an exception, `some r` the returned
record. -/
structure FallibleExternals where
  relative : String → String → String
  incrementIgnoredTotals : FileCoverage → Option FileCoverage

/-- The externals of a run in which `utils.incrementIgnoredTotals` returns `fileCoverage`. -/
def FallibleExternals.returning (ext : FallibleExternals) (fileCoverage : FileCoverage) :
    Externals :=
  { relative := ext.relative, incrementIgnoredTotals := fun _ => fileCoverage }

/-- Embedding of `addFileStats(node, fileCoverage, writer, projectRoot)` in which the call of
`utils.incrementIgnoredTotals` may throw.  `Except.ok writer` is a call that returned,
`Except.error writer` a call left by the exception; `writer` holds the lines written. -/
def addFileStatsE (ext : FallibleExternals) (node : Node) (fileCoverage : FileCoverage)
    (writer : Writer) (projectRoot : String) : Except Writer Writer :=
  let writer := println writer
    ("\t<file" ++ attr "path" (ext.relative projectRoot node.fullPath) ++ ">")
  match ext.incrementIgnoredTotals fileCoverage with
  | none => .error writer
  | some fileCoverage =>
    let branchByLine := branchCoverageByLine fileCoverage
    let lines := fileCoverage.l
    let writer :=
      lines.foldl (fun writer kv => println writer (lineToCover branchByLine kv)) writer
    .ok (println writer "\t</file>")

/-- The function `utils.incrementIgnoredTotals` of istanbul on a record without ignored
(`skip`) statements, functions and branch locations, each branch having at least one
location: it returns a copy of the record, and it throws when some branch id of `branchMap`
has no hit array in `b`, because it reads `hits[index]` for every location of the branch. -/
def strictIncrementIgnoredTotals (fileCoverage : FileCoverage) : Option FileCoverage :=
  if fileCoverage.branchMap.all (fun kv => (fileCoverage.b.lookup kv.1).isSome) then
    some fileCoverage
  else none

/-- Externals with `strictIncrementIgnoredTotals`; paths are left as they are. -/
def strictExternals : FallibleExternals :=
  { relative := fun _ p => p, incrementIgnoredTotals := strictIncrementIgnoredTotals }

/-! ## Properties of the binary64 model -/

theorem log2Aux_eq (fuel n : ℕ) (h : n ≤ fuel) : log2Aux fuel n = Nat.log2 n := by
  induction fuel generalizing n with
  | zero =>
    have hn : n = 0 := Nat.le_zero.mp h
    subst hn
    simp [log2Aux, Nat.log2_zero]
  | succ f ih =>
    rw [log2Aux, Nat.log2]
    by_cases h2 : 2 ≤ n
    · have hle : n / 2 ≤ f := by omega
      simp [h2, ih _ hle]
    · simp [h2]

theorem log2_eq (n : ℕ) : log2 n = Nat.log2 n := log2Aux_eq n n le_rfl

theorem two_pow_log2_le (n : ℕ) (hn : 0 < n) : 2 ^ log2 n ≤ n := by
  rw [log2_eq]
  exact Nat.log2_self_le (Nat.pos_iff_ne_zero.mp hn)

theorem lt_two_pow_log2_succ (n : ℕ) : n < 2 ^ (log2 n + 1) := by
  rw [log2_eq]
  exact Nat.lt_log2_self

theorem scale_spec (n d : ℕ) (s : ℤ) (hd : 0 < d) :
    0 < (scale n d s).2 ∧
      ((scale n d s).1 : ℚ) / ((scale n d s).2 : ℚ) = (n : ℚ) / (d : ℚ) / (2 : ℚ) ^ s := by
  have hdq : (d : ℚ) ≠ 0 := by exact_mod_cast (Nat.pos_iff_ne_zero.mp hd)
  unfold scale
  by_cases hs : 0 ≤ s
  · rw [if_pos hs]
    obtain ⟨k, rfl⟩ := Int.eq_ofNat_of_zero_le hs
    refine ⟨by positivity, ?_⟩
    simp only [Int.toNat_ofNat, Nat.cast_mul, Nat.cast_pow, Nat.cast_ofNat, zpow_natCast]
    rw [div_div]
  · rw [if_neg hs]
    have hs' : 0 ≤ -s := by omega
    obtain ⟨k, hk⟩ := Int.eq_ofNat_of_zero_le hs'
    have hsk : s = -(k : ℤ) := by omega
    refine ⟨hd, ?_⟩
    simp only [hk, Int.toNat_ofNat, Nat.cast_mul, Nat.cast_pow, Nat.cast_ofNat]
    rw [hsk, zpow_neg, zpow_natCast]
    field_simp


theorem floorLog2_spec (n d : ℕ) (hn : 0 < n) (hd : 0 < d) :
    (2 : ℚ) ^ floorLog2 n d ≤ (n : ℚ) / (d : ℚ) ∧
      (n : ℚ) / (d : ℚ) < (2 : ℚ) ^ (floorLog2 n d + 1) := by
  have hdq : (0 : ℚ) < (d : ℚ) := by exact_mod_cast hd
  have hn1 : ((2 : ℚ) ^ (log2 n : ℤ)) ≤ (n : ℚ) := by
    rw [zpow_natCast]; exact_mod_cast two_pow_log2_le n hn
  have hn2 : (n : ℚ) < (2 : ℚ) ^ ((log2 n : ℤ) + 1) := by
    have := lt_two_pow_log2_succ n
    have h2 : ((log2 n : ℤ) + 1) = ((log2 n + 1 : ℕ) : ℤ) := by push_cast; ring
    rw [h2, zpow_natCast]; exact_mod_cast this
  have hd1 : ((2 : ℚ) ^ (log2 d : ℤ)) ≤ (d : ℚ) := by
    rw [zpow_natCast]; exact_mod_cast two_pow_log2_le d hd
  have hd2 : (d : ℚ) < (2 : ℚ) ^ ((log2 d : ℤ) + 1) := by
    have := lt_two_pow_log2_succ d
    have h2 : ((log2 d : ℤ) + 1) = ((log2 d + 1 : ℕ) : ℤ) := by push_cast; ring
    rw [h2, zpow_natCast]; exact_mod_cast this
  have h2pos : ∀ z : ℤ, (0 : ℚ) < (2 : ℚ) ^ z := fun z => zpow_pos (by norm_num) z
  -- the quotient lies strictly between 2 ^ (k0 - 1) and 2 ^ (k0 + 1)
  have hupper : (n : ℚ) / (d : ℚ) < (2 : ℚ) ^ ((log2 n : ℤ) - (log2 d : ℤ) + 1) := by
    rw [div_lt_iff₀ hdq]
    calc (n : ℚ) < (2 : ℚ) ^ ((log2 n : ℤ) + 1) := hn2
      _ = (2 : ℚ) ^ ((log2 n : ℤ) - (log2 d : ℤ) + 1) * (2 : ℚ) ^ (log2 d : ℤ) := by
          rw [← zpow_add₀ (by norm_num : (2 : ℚ) ≠ 0)]; congr 1; ring
      _ ≤ (2 : ℚ) ^ ((log2 n : ℤ) - (log2 d : ℤ) + 1) * (d : ℚ) :=
          mul_le_mul_of_nonneg_left hd1 (le_of_lt (h2pos _))
  have hlower : (2 : ℚ) ^ ((log2 n : ℤ) - (log2 d : ℤ) - 1) ≤ (n : ℚ) / (d : ℚ) := by
    rw [le_div_iff₀ hdq]
    calc (2 : ℚ) ^ ((log2 n : ℤ) - (log2 d : ℤ) - 1) * (d : ℚ)
        ≤ (2 : ℚ) ^ ((log2 n : ℤ) - (log2 d : ℤ) - 1) * (2 : ℚ) ^ ((log2 d : ℤ) + 1) :=
          mul_le_mul_of_nonneg_left (le_of_lt hd2) (le_of_lt (h2pos _))
      _ = (2 : ℚ) ^ (log2 n : ℤ) := by
          rw [← zpow_add₀ (by norm_num : (2 : ℚ) ≠ 0)]; congr 1; ring
      _ ≤ (n : ℚ) := hn1
  obtain ⟨hp2, hp⟩ := scale_spec n d ((log2 n : ℤ) - (log2 d : ℤ)) hd
  have hp2q : (0 : ℚ) < ((scale n d ((log2 n : ℤ) - (log2 d : ℤ))).2 : ℚ) := by exact_mod_cast hp2
  unfold floorLog2
  simp only
  by_cases htest : (scale n d ((log2 n : ℤ) - (log2 d : ℤ))).2
      ≤ (scale n d ((log2 n : ℤ) - (log2 d : ℤ))).1
  · rw [if_pos htest]
    refine ⟨?_, hupper⟩
    have h1 : (1 : ℚ) ≤ ((scale n d ((log2 n : ℤ) - (log2 d : ℤ))).1 : ℚ)
        / ((scale n d ((log2 n : ℤ) - (log2 d : ℤ))).2 : ℚ) := by
      rw [le_div_iff₀ hp2q, one_mul]; exact_mod_cast htest
    rw [hp, le_div_iff₀ (h2pos _), one_mul] at h1
    exact h1
  · rw [if_neg htest]
    refine ⟨hlower, ?_⟩
    have h1 : ((scale n d ((log2 n : ℤ) - (log2 d : ℤ))).1 : ℚ)
        / ((scale n d ((log2 n : ℤ) - (log2 d : ℤ))).2 : ℚ) < 1 := by
      rw [div_lt_iff₀ hp2q, one_mul]; exact_mod_cast (Nat.lt_of_not_le htest)
    rw [hp, div_lt_iff₀ (h2pos _), one_mul] at h1
    have h3 : (log2 n : ℤ) - (log2 d : ℤ) - 1 + 1 = (log2 n : ℤ) - (log2 d : ℤ) := by ring
    rw [h3]
    exact h1

theorem roundHalfEven_spec (n d : ℕ) (hd : 0 < d) :
    |((roundHalfEven n d : ℕ) : ℚ) - (n : ℚ) / (d : ℚ)| ≤ 1 / 2 := by
  have hdq : (0 : ℚ) < (d : ℚ) := by exact_mod_cast hd
  have hdiv : (n : ℚ) / (d : ℚ) = ((n / d : ℕ) : ℚ) + ((n % d : ℕ) : ℚ) / (d : ℚ) := by
    have h := Nat.div_add_mod n d
    have hq : (n : ℚ) = (d : ℚ) * ((n / d : ℕ) : ℚ) + ((n % d : ℕ) : ℚ) := by exact_mod_cast h.symm
    field_simp
    rw [hq]; ring
  have hr0 : (0 : ℚ) ≤ ((n % d : ℕ) : ℚ) / (d : ℚ) := by positivity
  have hr1 : ((n % d : ℕ) : ℚ) / (d : ℚ) < 1 := by
    rw [div_lt_iff₀ hdq, one_mul]; exact_mod_cast Nat.mod_lt n hd
  unfold roundHalfEven
  simp only
  by_cases h1 : 2 * (n % d) < d
  · rw [if_pos h1, hdiv]
    have : ((n % d : ℕ) : ℚ) / (d : ℚ) ≤ 1 / 2 := by
      rw [div_le_iff₀ hdq]
      have : (2 : ℚ) * ((n % d : ℕ) : ℚ) ≤ (d : ℚ) := by exact_mod_cast le_of_lt h1
      linarith
    rw [abs_le]; constructor <;> linarith
  · rw [if_neg h1]
    have hge : (1 : ℚ) / 2 ≤ ((n % d : ℕ) : ℚ) / (d : ℚ) := by
      rw [le_div_iff₀ hdq]
      have : (d : ℚ) ≤ (2 : ℚ) * ((n % d : ℕ) : ℚ) := by exact_mod_cast Nat.le_of_not_lt h1
      linarith
    by_cases h2 : d < 2 * (n % d)
    · rw [if_pos h2, hdiv]
      push_cast
      rw [abs_le]; constructor <;> linarith
    · rw [if_neg h2]
      have hle : ((n % d : ℕ) : ℚ) / (d : ℚ) ≤ 1 / 2 := by
        rw [div_le_iff₀ hdq]
        have : (2 : ℚ) * ((n % d : ℕ) : ℚ) ≤ (d : ℚ) := by exact_mod_cast Nat.le_of_not_lt h2
        linarith
      split
      · rw [hdiv, abs_le]; constructor <;> linarith
      · rw [hdiv]; push_cast
        rw [abs_le]; constructor <;> linarith


/-- Below `2 ^ 52` rounding never overflows: the result of `round64` is finite, its quantum
`2 ^ e` is at most `2 ^ (K - 52)` when the quotient is below `2 ^ (K + 1)`, and it is within
half a quantum of the quotient. -/
theorem round64_spec (n d : ℕ) (hn : 0 < n) (hd : 0 < d) (K : ℤ)
    (hK : (n : ℚ) / (d : ℚ) < (2 : ℚ) ^ (K + 1)) (hK1 : K < 52) (hK2 : -1022 ≤ K) :
    ∃ m e, round64 n d = .finite m e ∧ e ≤ K - 52 ∧
      |(m : ℚ) * (2 : ℚ) ^ e - (n : ℚ) / (d : ℚ)| ≤ (2 : ℚ) ^ e / 2 := by
  obtain ⟨hf1, -⟩ := floorLog2_spec n d hn hd
  have hfl : floorLog2 n d < K + 1 :=
    (zpow_lt_zpow_iff_right₀ (by norm_num : (1 : ℚ) < 2)).mp (lt_of_le_of_lt hf1 hK)
  have he : max (floorLog2 n d - 52) (-1074) ≤ K - 52 := by
    apply max_le <;> omega
  obtain ⟨hp2, hp⟩ := scale_spec n d (max (floorLog2 n d - 52) (-1074)) hd
  have hr := roundHalfEven_spec (scale n d (max (floorLog2 n d - 52) (-1074))).1
    (scale n d (max (floorLog2 n d - 52) (-1074))).2 hp2
  have h2pos : (0 : ℚ) < (2 : ℚ) ^ (max (floorLog2 n d - 52) (-1074)) :=
    zpow_pos (by norm_num) _
  refine ⟨roundHalfEven (scale n d (max (floorLog2 n d - 52) (-1074))).1
    (scale n d (max (floorLog2 n d - 52) (-1074))).2, max (floorLog2 n d - 52) (-1074), ?_, he, ?_⟩
  · unfold round64
    rw [if_neg (Nat.pos_iff_ne_zero.mp hn)]
    simp only
    rw [if_neg]
    intro hcon
    omega
  · rw [hp] at hr
    generalize (2 : ℚ) ^ (max (floorLog2 n d - 52) (-1074)) = q at hr h2pos ⊢
    generalize ((roundHalfEven (scale n d (max (floorLog2 n d - 52) (-1074))).1
      (scale n d (max (floorLog2 n d - 52) (-1074))).2 : ℕ) : ℚ) = m at hr ⊢
    generalize (n : ℚ) / (d : ℚ) = x at hr ⊢
    have hmul := mul_le_mul_of_nonneg_right hr (le_of_lt h2pos)
    rw [← abs_of_pos h2pos, ← abs_mul, abs_of_pos h2pos] at hmul
    have hrew : (m - x / q) * q = m * q - x := by field_simp
    rw [hrew] at hmul
    calc _ ≤ 1 / 2 * q := hmul
      _ = q / 2 := by ring


/-- A finite result of `round64` is a binary64 number: its significand has at most 53 bits
(it is at most `2 ^ 53`) and its quantum is at least `2 ^ (-1074)`. -/
theorem round64_finite_bounds (n d m : ℕ) (e : ℤ) (hd : 0 < d)
    (h : round64 n d = .finite m e) : m ≤ 2 ^ 53 ∧ (m ≠ 0 → -1074 ≤ e) := by
  rcases Nat.eq_zero_or_pos n with hn0 | hn
  · subst hn0
    simp only [round64, if_true] at h
    injection h with hm he
    subst hm
    exact ⟨Nat.zero_le _, fun h0 => absurd rfl h0⟩
  · obtain ⟨-, hf2⟩ := floorLog2_spec n d hn hd
    obtain ⟨hp2, hp⟩ := scale_spec n d (max (floorLog2 n d - 52) (-1074)) hd
    have hr := roundHalfEven_spec (scale n d (max (floorLog2 n d - 52) (-1074))).1
      (scale n d (max (floorLog2 n d - 52) (-1074))).2 hp2
    unfold round64 at h
    rw [if_neg (Nat.pos_iff_ne_zero.mp hn)] at h
    simp only at h
    split at h
    · exact absurd h (by simp)
    · injection h with hm he
      subst hm he
      refine ⟨?_, fun _ => le_max_right _ _⟩
      have h2pos : (0 : ℚ) < (2 : ℚ) ^ (max (floorLog2 n d - 52) (-1074)) :=
        zpow_pos (by norm_num) _
      have hx : (n : ℚ) / (d : ℚ) / (2 : ℚ) ^ (max (floorLog2 n d - 52) (-1074))
          < (2 : ℚ) ^ (53 : ℕ) := by
        rw [div_lt_iff₀ h2pos]
        calc (n : ℚ) / (d : ℚ) < (2 : ℚ) ^ (floorLog2 n d + 1) := hf2
          _ ≤ (2 : ℚ) ^ ((53 : ℤ) + max (floorLog2 n d - 52) (-1074)) :=
              zpow_le_zpow_right₀ (by norm_num) (by
                have := le_max_left (floorLog2 n d - 52) (-1074 : ℤ)
                omega)
          _ = (2 : ℚ) ^ (53 : ℕ) * (2 : ℚ) ^ (max (floorLog2 n d - 52) (-1074)) := by
              rw [zpow_add₀ (by norm_num : (2 : ℚ) ≠ 0)]; norm_num
      rw [hp, abs_le] at hr
      have hlt : ((roundHalfEven (scale n d (max (floorLog2 n d - 52) (-1074))).1
          (scale n d (max (floorLog2 n d - 52) (-1074))).2 : ℕ) : ℚ) < ((2 ^ 53 + 1 : ℕ) : ℚ) := by
        push_cast
        linarith [hr.2]
      have := Nat.cast_lt.mp hlt
      omega

/-- The percentage `c / t * 100` of binary64 arithmetic, for `c ≤ t` and `t > 0`, is finite
and within `2 ^ (-45)` of the exact rational percentage. -/
theorem jsMul_jsDiv_error (c t : ℕ) (hc : c ≤ t) (ht : 0 < t) :
    ∃ m e, jsMul (jsDiv c t) 100 = .finite m e ∧
      |(m : ℚ) * (2 : ℚ) ^ e - (c : ℚ) / (t : ℚ) * 100| ≤ (2 : ℚ) ^ (-45 : ℤ) := by
  have htq : (0 : ℚ) < (t : ℚ) := by exact_mod_cast ht
  have ht' : t ≠ 0 := Nat.pos_iff_ne_zero.mp ht
  have hv45 : (2 : ℚ) ^ (-45 : ℤ) = 1 / 35184372088832 := by
    rw [zpow_neg]; norm_num
  rw [hv45]
  rcases Nat.eq_zero_or_pos c with hc0 | hcpos
  · subst hc0
    refine ⟨0, 0, ?_, ?_⟩
    · simp [jsDiv, ht', round64, jsMul, scale]
    · simp only [Nat.cast_zero, zero_mul, zero_div, sub_zero, abs_zero]
      positivity
  · have hx1 : (c : ℚ) / (t : ℚ) ≤ 1 := by
      rw [div_le_iff₀ htq, one_mul]; exact_mod_cast hc
    have hx2 : (c : ℚ) / (t : ℚ) < (2 : ℚ) ^ ((0 : ℤ) + 1) := by
      norm_num; linarith
    obtain ⟨m1, e1, hdiv, he1, herr1⟩ :=
      round64_spec c t hcpos ht 0 hx2 (by norm_num) (by norm_num)
    have hq1 : (2 : ℚ) ^ e1 ≤ 1 / 4503599627370496 := by
      have h := zpow_le_zpow_right₀ (by norm_num : (1 : ℚ) ≤ 2) (show e1 ≤ -52 by omega)
      have hv52 : (2 : ℚ) ^ (-52 : ℤ) = 1 / 4503599627370496 := by
        rw [zpow_neg]; norm_num
      rw [hv52] at h
      exact h
    rw [abs_le] at herr1
    obtain ⟨hp2, hp⟩ := scale_spec (m1 * 100) 1 (-e1) Nat.one_pos
    have hy : ((scale (m1 * 100) 1 (-e1)).1 : ℚ) / ((scale (m1 * 100) 1 (-e1)).2 : ℚ)
        = (m1 : ℚ) * (2 : ℚ) ^ e1 * 100 := by
      rw [hp, zpow_neg]
      push_cast
      field_simp
      ring
    have hmul : jsMul (jsDiv c t) 100
        = round64 (scale (m1 * 100) 1 (-e1)).1 (scale (m1 * 100) 1 (-e1)).2 := by
      unfold jsDiv
      rw [if_neg ht', hdiv]
      rfl
    rw [hmul]
    rcases Nat.eq_zero_or_pos (scale (m1 * 100) 1 (-e1)).1 with hp0 | hppos
    · refine ⟨0, 0, ?_, ?_⟩
      · rw [hp0]; simp [round64]
      · rw [hp0] at hy
        simp only [Nat.cast_zero, zero_div] at hy
        simp only [Nat.cast_zero, zero_mul, zero_sub, abs_neg]
        generalize (m1 : ℚ) * (2 : ℚ) ^ e1 = y at hy herr1
        generalize (2 : ℚ) ^ e1 = q at hq1 herr1
        generalize (c : ℚ) / (t : ℚ) = x at herr1 hx1 ⊢
        rw [abs_le]
        constructor <;> linarith [herr1.1, herr1.2]
    · have hybound : ((scale (m1 * 100) 1 (-e1)).1 : ℚ) / ((scale (m1 * 100) 1 (-e1)).2 : ℚ)
          < (2 : ℚ) ^ ((6 : ℤ) + 1) := by
        rw [hy]
        have h128 : (2 : ℚ) ^ ((6 : ℤ) + 1) = 128 := by norm_num
        rw [h128]
        generalize (m1 : ℚ) * (2 : ℚ) ^ e1 = y at herr1
        generalize (2 : ℚ) ^ e1 = q at hq1 herr1
        generalize (c : ℚ) / (t : ℚ) = x at herr1 hx1
        linarith [herr1.1, herr1.2]
      obtain ⟨m2, e2, hres, he2, herr2⟩ :=
        round64_spec _ _ hppos hp2 6 hybound (by norm_num) (by norm_num)
      have hq2 : (2 : ℚ) ^ e2 ≤ 1 / 70368744177664 := by
        have h := zpow_le_zpow_right₀ (by norm_num : (1 : ℚ) ≤ 2) (show e2 ≤ -46 by omega)
        have hv46 : (2 : ℚ) ^ (-46 : ℤ) = 1 / 70368744177664 := by
          rw [zpow_neg]; norm_num
        rw [hv46] at h
        exact h
      rw [hy, abs_le] at herr2
      refine ⟨m2, e2, hres, ?_⟩
      generalize (m2 : ℚ) * (2 : ℚ) ^ e2 = z at herr2 ⊢
      generalize (2 : ℚ) ^ e2 = q2 at hq2 herr2
      generalize (m1 : ℚ) * (2 : ℚ) ^ e1 = y at herr1 herr2
      generalize (2 : ℚ) ^ e1 = q at hq1 herr1
      generalize (c : ℚ) / (t : ℚ) = x at herr1 hx1 ⊢
      rw [abs_le]
      constructor <;> linarith [herr1.1, herr1.2, herr2.1, herr2.2]

/-! ## Properties of the mapping helpers -/

theorem lookup_setProp_self {α : Type} (o : List (ℕ × α)) (k : ℕ) (v : α) :
    (setProp o k v).lookup k = some v := by
  induction o with
  | nil => simp [setProp, List.lookup]
  | cons hd tl ih =>
    obtain ⟨k', v'⟩ := hd
    by_cases h : k' = k
    · subst h; simp [setProp, List.lookup]
    · have h' : (k == k') = false := by simpa using fun e => h e.symm
      simp [setProp, h, List.lookup, h', ih]

theorem lookup_setProp_of_ne {α : Type} (o : List (ℕ × α)) (k L : ℕ) (v : α) (h : L ≠ k) :
    (setProp o k v).lookup L = o.lookup L := by
  induction o with
  | nil =>
    have h' : (L == k) = false := by simpa using h
    simp [setProp, List.lookup, h']
  | cons hd tl ih =>
    obtain ⟨k', v'⟩ := hd
    by_cases hk : k' = k
    · subst hk
      have h' : (L == k') = false := by simpa using h
      simp [setProp, List.lookup, h']
    · simp only [setProp, hk, if_false, List.lookup]
      rw [ih]

theorem lookup_poolBranch (branches : List (String × List ℕ)) (ret : List (ℕ × List ℕ))
    (kv : String × BranchMeta) (L : ℕ) :
    (poolBranch branches ret kv).lookup L =
      if L = kv.2.line then some ((ret.lookup L).getD [] ++ (branches.lookup kv.1).getD [])
      else ret.lookup L := by
  unfold poolBranch
  by_cases h : L = kv.2.line
  · subst h
    simp [lookup_setProp_self]
  · simp [h, lookup_setProp_of_ne _ _ _ _ h]


theorem lookup_foldl_poolBranch (branches : List (String × List ℕ))
    (bm : List (String × BranchMeta)) (acc : List (ℕ × List ℕ)) (L : ℕ) :
    (bm.foldl (poolBranch branches) acc).lookup L =
      if bm.any (fun kv => decide (kv.2.line = L)) then
        some ((acc.lookup L).getD [] ++
          (bm.filter (fun kv => decide (kv.2.line = L))).flatMap
            (fun kv => (branches.lookup kv.1).getD []))
      else acc.lookup L := by
  induction bm generalizing acc with
  | nil => simp
  | cons kv rest ih =>
    rw [List.foldl_cons, ih, lookup_poolBranch]
    by_cases h : kv.2.line = L
    · subst h
      simp only [List.any_cons, decide_True, Bool.true_or, if_true, List.filter_cons,
        List.flatMap_cons, Option.getD_some, List.append_assoc]
      split
      · rfl
      · rename_i hrest
        have hnil : List.filter (fun x => decide (x.2.line = kv.2.line)) rest = [] := by
          simpa [List.filter_eq_nil_iff] using hrest
        simp [hnil]
    · have h' : ¬ L = kv.2.line := fun e => h e.symm
      have hd : decide (kv.2.line = L) = false := by simpa using h
      simp only [h', if_false, List.any_cons, hd, Bool.false_or, List.filter_cons]
      rfl

theorem lookup_map_snd {α β : Type} (f : α → β) (o : List (ℕ × α)) (L : ℕ) :
    (o.map (fun kd => (kd.1, f kd.2))).lookup L = (o.lookup L).map f := by
  induction o with
  | nil => simp
  | cons hd tl ih =>
    obtain ⟨k, v⟩ := hd
    simp only [List.map_cons, List.lookup_cons]
    cases hk : (L == k) <;> simp [ih]

/-- The entry of `branchCoverageByLine` at line `L`: present exactly when some branch id maps
to `L`, and then the statistics of the hit counts pooled for `L`. -/
theorem lookup_branchCoverageByLine (fc : FileCoverage) (L : ℕ) :
    (branchCoverageByLine fc).lookup L =
      if fc.branchMap.any (fun kv => decide (kv.2.line = L)) then some (lineStats (pooled fc L))
      else none := by
  unfold branchCoverageByLine
  simp only [lookup_map_snd, lookup_foldl_poolBranch, pooled]
  split <;> simp

theorem keys_setProp {α : Type} (o : List (ℕ × α)) (k : ℕ) (v : α) :
    (setProp o k v).map Prod.fst =
      if k ∈ o.map Prod.fst then o.map Prod.fst else o.map Prod.fst ++ [k] := by
  induction o with
  | nil => simp [setProp]
  | cons hd tl ih =>
    obtain ⟨k', v'⟩ := hd
    by_cases h : k' = k
    · subst h; simp [setProp]
    · have h' : ¬ k = k' := fun e => h e.symm
      simp only [setProp, h, if_false, List.map_cons, ih, List.mem_cons, h', false_or]
      split <;> simp

theorem nodup_keys_setProp {α : Type} (o : List (ℕ × α)) (k : ℕ) (v : α)
    (h : (o.map Prod.fst).Nodup) : ((setProp o k v).map Prod.fst).Nodup := by
  rw [keys_setProp]
  split
  · exact h
  · rename_i hk
    exact List.Nodup.append h (List.nodup_singleton k) (by simpa using hk)

theorem nodup_keys_foldl_poolBranch (branches : List (String × List ℕ))
    (bm : List (String × BranchMeta)) (acc : List (ℕ × List ℕ))
    (h : (acc.map Prod.fst).Nodup) :
    ((bm.foldl (poolBranch branches) acc).map Prod.fst).Nodup := by
  induction bm generalizing acc with
  | nil => simpa using h
  | cons kv rest ih =>
    rw [List.foldl_cons]
    apply ih
    unfold poolBranch
    exact nodup_keys_setProp _ _ _ (nodup_keys_setProp _ _ _ h)

/-- A line number has at most one entry in the result of `branchCoverageByLine`. -/
theorem nodup_keys_branchCoverageByLine (fc : FileCoverage) :
    ((branchCoverageByLine fc).map Prod.fst).Nodup := by
  unfold branchCoverageByLine
  have h := nodup_keys_foldl_poolBranch fc.b fc.branchMap [] (by simp)
  simpa [List.map_map, Function.comp_def] using h

theorem mem_keys_iff_lookup_isSome {α : Type} (o : List (ℕ × α)) (L : ℕ) :
    L ∈ o.map Prod.fst ↔ (o.lookup L).isSome = true := by
  induction o with
  | nil => simp
  | cons hd tl ih =>
    obtain ⟨k, v⟩ := hd
    simp only [List.map_cons, List.mem_cons, List.lookup_cons]
    by_cases hk : L = k
    · subst hk; simp
    · have h' : (L == k) = false := by simpa using hk
      simp [hk, h', ih]


theorem any_line_iff (bm : List (String × BranchMeta)) (L : ℕ) :
    bm.any (fun kv => decide (kv.2.line = L)) = true ↔ ∃ kv ∈ bm, kv.2.line = L := by
  simp [List.any_eq_true]

theorem pooled_eq_of_hits (fc : FileCoverage) (hits : String → List ℕ)
    (h : ∀ kv ∈ fc.branchMap, fc.b.lookup kv.1 = some (hits kv.1)) (L : ℕ) :
    pooled fc L =
      (fc.branchMap.filter (fun kv => decide (kv.2.line = L))).flatMap (fun kv => hits kv.1) := by
  unfold pooled
  apply List.flatMap_congr
  intro kv hkv
  rw [h kv (List.mem_of_mem_filter hkv)]
  rfl

theorem length_flatMap_eq_sum {α : Type} (xs : List α) (f : α → List ℕ) :
    (xs.flatMap f).length = (xs.map (fun x => (f x).length)).sum := by
  induction xs with
  | nil => simp
  | cons x rest ih => simp [List.flatMap_cons, ih]


theorem pooled_removeBranch (fc : FileCoverage) (k : String) (hk : fc.b.lookup k = none)
    (L : ℕ) : pooled (removeBranch fc k) L = pooled fc L := by
  unfold pooled removeBranch
  simp only
  induction fc.branchMap with
  | nil => simp
  | cons kv rest ih =>
    by_cases h1 : kv.1 = k
    · have hk' : List.lookup kv.1 fc.b = none := h1 ▸ hk
      by_cases h2 : kv.2.line = L
      · simp only [List.filter_cons, h1, h2, ne_eq, not_true_eq_false, decide_False,
          decide_True, if_true, List.flatMap_cons, hk, hk', Option.getD_none, List.nil_append]
        simpa using ih
      · simp only [List.filter_cons, h1, h2, ne_eq, not_true_eq_false, decide_False]
        simpa using ih
    · by_cases h2 : kv.2.line = L
      · simp only [List.filter_cons, h1, h2, ne_eq, not_false_eq_true, decide_True, if_true,
          List.flatMap_cons]
        rw [ih]
      · simp only [List.filter_cons, h1, h2, ne_eq, not_false_eq_true, decide_True, if_true,
          decide_False]
        simpa using ih

theorem round64_ne_nan (n d : ℕ) : round64 n d ≠ .nan := by
  unfold round64
  split
  · simp
  · simp only
    split <;> simp

theorem jsMul_jsDiv_ne_nan (c t : ℕ) (ht : 0 < t) : jsMul (jsDiv c t) 100 ≠ .nan := by
  have ht' : t ≠ 0 := Nat.pos_iff_ne_zero.mp ht
  unfold jsDiv
  rw [if_neg ht']
  cases h : round64 c t with
  | nan => exact absurd h (round64_ne_nan c t)
  | inf => simp [jsMul]
  | finite m e => simp only [jsMul]; exact round64_ne_nan _ _

/-- C1: when every branch id of `branchMap` has a hit array in `b`, the entry that
`branchCoverageByLine` returns at a line `L` with at least one branch is the only entry at
`L`, its `total` is the summed length of the hit arrays of the branch ids whose line is `L`,
and its `covered` is the number of hit counts greater than 0 among them.  For the
specification's example record this is covered 2 / total 3 at line 5 and covered 0 / total 2
at line 7. -/
theorem branchCoverageByLine_pools_outcomes_by_line :
    (∀ (fc : FileCoverage) (hits : String → List ℕ),
      (∀ kv ∈ fc.branchMap, fc.b.lookup kv.1 = some (hits kv.1)) →
      ∀ L : ℕ, (∃ kv ∈ fc.branchMap, kv.2.line = L) →
        ((branchCoverageByLine fc).map Prod.fst).count L = 1 ∧
        ∃ e, (branchCoverageByLine fc).lookup L = some e ∧
          e.total = ((fc.branchMap.filter (fun kv => decide (kv.2.line = L))).map
            (fun kv => (hits kv.1).length)).sum ∧
          e.covered = ((fc.branchMap.filter (fun kv => decide (kv.2.line = L))).flatMap
            (fun kv => hits kv.1)).countP (fun item => decide (item > 0))) ∧
    ((branchCoverageByLine exampleRecord).lookup 5).map (fun e => (e.covered, e.total))
      = some (2, 3) ∧
    ((branchCoverageByLine exampleRecord).lookup 7).map (fun e => (e.covered, e.total))
      = some (0, 2) := by
  refine ⟨?_, by decide, by decide⟩
  intro fc hits h L hL
  have hany := (any_line_iff fc.branchMap L).mpr hL
  have hlook := lookup_branchCoverageByLine fc L
  rw [if_pos hany] at hlook
  refine ⟨?_, lineStats (pooled fc L), hlook, ?_, ?_⟩
  · apply List.count_eq_one_of_mem (nodup_keys_branchCoverageByLine fc)
    rw [mem_keys_iff_lookup_isSome, hlook]
    rfl
  · show (pooled fc L).length = _
    rw [pooled_eq_of_hits fc hits h L, length_flatMap_eq_sum]
  · show ((pooled fc L).filter _).length = _
    rw [pooled_eq_of_hits fc hits h L, List.countP_eq_length_filter]

/-- C1, at the specification's example record and line 5. -/
theorem branchCoverageByLine_pools_outcomes_by_line_witness :
    (∀ kv ∈ exampleRecord.branchMap,
      exampleRecord.b.lookup kv.1 = some ((exampleRecord.b.lookup kv.1).getD [])) ∧
    (∃ kv ∈ exampleRecord.branchMap, kv.2.line = 5) ∧
    (((branchCoverageByLine exampleRecord).map Prod.fst).count 5 = 1 ∧
      ∃ e, (branchCoverageByLine exampleRecord).lookup 5 = some e ∧
        e.total = ((exampleRecord.branchMap.filter (fun kv => decide (kv.2.line = 5))).map
          (fun kv => ((exampleRecord.b.lookup kv.1).getD []).length)).sum ∧
        e.covered = ((exampleRecord.branchMap.filter (fun kv => decide (kv.2.line = 5))).flatMap
          (fun kv => (exampleRecord.b.lookup kv.1).getD [])).countP
            (fun item => decide (item > 0))) :=
  ⟨by decide, by decide,
    branchCoverageByLine_pools_outcomes_by_line.1 exampleRecord
      (fun k => (exampleRecord.b.lookup k).getD []) (by decide) 5 (by decide)⟩

/-- C2: the mapping returned by `branchCoverageByLine` has an entry for line `L` if and only
if some branch id of `branchMap` has line `L`; a line that no branch maps to has no entry,
whether or not it is a key of the lines mapping `l`. -/
theorem branchCoverageByLine_entry_iff_branch_on_line (fc : FileCoverage) (L : ℕ) :
    ((∃ e, (branchCoverageByLine fc).lookup L = some e) ↔ ∃ kv ∈ fc.branchMap, kv.2.line = L) ∧
    (L ∈ (branchCoverageByLine fc).map Prod.fst ↔ ∃ kv ∈ fc.branchMap, kv.2.line = L) ∧
    ((∀ kv ∈ fc.branchMap, kv.2.line ≠ L) → (branchCoverageByLine fc).lookup L = none) := by
  have hlook := lookup_branchCoverageByLine fc L
  have hiff := any_line_iff fc.branchMap L
  by_cases hany : fc.branchMap.any (fun kv => decide (kv.2.line = L)) = true
  · rw [if_pos hany] at hlook
    have hex := hiff.mp hany
    refine ⟨⟨fun _ => hex, fun _ => ⟨_, hlook⟩⟩, ⟨fun _ => hex, fun _ => ?_⟩, ?_⟩
    · rw [mem_keys_iff_lookup_isSome, hlook]; rfl
    · intro hno
      obtain ⟨kv, hkv, hline⟩ := hex
      exact absurd hline (hno kv hkv)
  · rw [if_neg hany] at hlook
    have hno : ¬ ∃ kv ∈ fc.branchMap, kv.2.line = L := fun hex => hany (hiff.mpr hex)
    refine ⟨⟨?_, fun hex => absurd hex hno⟩, ⟨?_, fun hex => absurd hex hno⟩, fun _ => hlook⟩
    · rintro ⟨e, he⟩
      rw [hlook] at he
      exact absurd he (by simp)
    · intro hmem
      rw [mem_keys_iff_lookup_isSome, hlook] at hmem
      exact absurd hmem (by simp)

/-- C2, at the example record: line 6 is a key of `l` and the line of no branch. -/
theorem branchCoverageByLine_entry_iff_branch_on_line_witness :
    (∀ kv ∈ exampleRecord.branchMap, kv.2.line ≠ 6) ∧
    6 ∈ exampleRecord.l.map Prod.fst ∧
    (branchCoverageByLine exampleRecord).lookup 6 = none :=
  ⟨by decide, by decide,
    (branchCoverageByLine_entry_iff_branch_on_line exampleRecord 6).2.2 (by decide)⟩


/-- C3 fails as stated: in `emptyHitsRecord` the only branch id has a hit array in `b`, the
array is empty, and the entry returned at line 5 has total 0 and the coverage `0 / 0 * 100`,
which is `NaN`. -/
theorem total_zero_for_empty_hit_array :
    (∀ kv ∈ emptyHitsRecord.branchMap, ∃ arr, emptyHitsRecord.b.lookup kv.1 = some arr) ∧
    ∃ e, (branchCoverageByLine emptyHitsRecord).lookup 5 = some e ∧
      ¬ (0 < e.total) ∧ e.coverage = JSNumber.nan := by
  refine ⟨?_, ⟨0, 0, .nan⟩, by decide, by decide, rfl⟩
  intro kv hkv
  simp only [emptyHitsRecord, List.mem_singleton] at hkv
  subst hkv
  exact ⟨[], rfl⟩

/-- C3, amended: when every branch id of `branchMap` has a non-empty hit array in `b`, every
entry that `branchCoverageByLine` returns has total > 0, and its coverage is not `NaN`. -/
theorem total_pos_of_nonempty_hit_arrays (fc : FileCoverage)
    (h : ∀ kv ∈ fc.branchMap, ∃ arr, fc.b.lookup kv.1 = some arr ∧ arr ≠ [])
    (L : ℕ) (e : LineBranchStats) (he : (branchCoverageByLine fc).lookup L = some e) :
    0 < e.total ∧ e.coverage ≠ JSNumber.nan := by
  rw [lookup_branchCoverageByLine] at he
  split at he
  · rename_i hany
    obtain ⟨kv, hkv, hline⟩ := (any_line_iff fc.branchMap L).mp hany
    obtain ⟨arr, harr, hne⟩ := h kv hkv
    have hpos : 0 < (pooled fc L).length := by
      obtain ⟨x, hx⟩ := List.exists_mem_of_ne_nil arr hne
      apply List.length_pos_of_mem (a := x)
      unfold pooled
      rw [List.mem_flatMap]
      refine ⟨kv, ?_, ?_⟩
      · rw [List.mem_filter]; exact ⟨hkv, by simpa using hline⟩
      · rw [harr]; exact hx
    have hE : e = lineStats (pooled fc L) := (Option.some.inj he).symm
    subst hE
    exact ⟨hpos, jsMul_jsDiv_ne_nan _ _ hpos⟩
  · exact absurd he (by simp)

/-- C3 amended, at the example record and line 5. -/
theorem total_pos_of_nonempty_hit_arrays_witness :
    (∀ kv ∈ exampleRecord.branchMap, ∃ arr, exampleRecord.b.lookup kv.1 = some arr ∧ arr ≠ []) ∧
    (branchCoverageByLine exampleRecord).lookup 5
      = some ⟨2, 3, .finite 4691249611844266 (-46)⟩ ∧
    (0 < 3 ∧ JSNumber.finite 4691249611844266 (-46) ≠ JSNumber.nan) := by
  have h : ∀ kv ∈ exampleRecord.branchMap,
      ∃ arr, exampleRecord.b.lookup kv.1 = some arr ∧ arr ≠ [] := by
    intro kv hkv
    simp only [exampleRecord, List.mem_cons, List.mem_singleton, List.not_mem_nil,
      or_false] at hkv
    rcases hkv with rfl | rfl | rfl
    · exact ⟨[1, 0], rfl, by decide⟩
    · exact ⟨[2], rfl, by decide⟩
    · exact ⟨[0, 0], rfl, by decide⟩
  exact ⟨h, by decide,
    total_pos_of_nonempty_hit_arrays exampleRecord h 5
      ⟨2, 3, .finite 4691249611844266 (-46)⟩ (by decide)⟩

/-- C4 fails as stated: in `missingHitsRecord` the branch id `b1` has no entry in `b`; the
result still has an entry at its line 5 (total 0, coverage `NaN`), while the result for the
record without `b1` has none. -/
theorem missing_hit_array_keeps_line_entry :
    missingHitsRecord.b.lookup "b1" = none ∧
    (∃ kv ∈ missingHitsRecord.branchMap, kv.1 = "b1") ∧
    (branchCoverageByLine missingHitsRecord).lookup 5 = some ⟨0, 0, .nan⟩ ∧
    (branchCoverageByLine (removeBranch missingHitsRecord "b1")).lookup 5 = none ∧
    branchCoverageByLine missingHitsRecord
      ≠ branchCoverageByLine (removeBranch missingHitsRecord "b1") :=
  ⟨by decide, by decide, by decide, by decide, by decide⟩

/-- C4, amended: `branchCoverageByLine` is total, and a branch id `k` without an entry in `b`
contributes no outcome.  At every line that another branch id maps to, and at every line that
no branch id maps to, the result equals the result for the record with `k` removed from
`branchMap`.  At a line that only `k` maps to, the result has the entry
`{ covered: 0, total: 0, coverage: NaN }` where the reduced record has none. -/
theorem branchCoverageByLine_missing_hit_array (fc : FileCoverage) (k : String)
    (hk : fc.b.lookup k = none) (L : ℕ) :
    (((∃ kv ∈ fc.branchMap, kv.1 ≠ k ∧ kv.2.line = L) ∨ (∀ kv ∈ fc.branchMap, kv.2.line ≠ L)) →
      (branchCoverageByLine fc).lookup L = (branchCoverageByLine (removeBranch fc k)).lookup L) ∧
    ((∃ kv ∈ fc.branchMap, kv.2.line = L) → (∀ kv ∈ fc.branchMap, kv.2.line = L → kv.1 = k) →
      (branchCoverageByLine fc).lookup L = some ⟨0, 0, .nan⟩ ∧
      (branchCoverageByLine (removeBranch fc k)).lookup L = none) := by
  have hl := lookup_branchCoverageByLine fc L
  have hr := lookup_branchCoverageByLine (removeBranch fc k) L
  rw [pooled_removeBranch fc k hk L] at hr
  have hmemr : ∀ kv, kv ∈ (removeBranch fc k).branchMap ↔ kv ∈ fc.branchMap ∧ kv.1 ≠ k := by
    intro kv
    simp [removeBranch, List.mem_filter]
  constructor
  · rintro (⟨kv, hkv, hne, hline⟩ | hno)
    · rw [hl, hr, if_pos ((any_line_iff _ L).mpr ⟨kv, hkv, hline⟩),
        if_pos ((any_line_iff _ L).mpr ⟨kv, (hmemr kv).mpr ⟨hkv, hne⟩, hline⟩)]
    · have h1 : ¬ fc.branchMap.any (fun kv => decide (kv.2.line = L)) = true := by
        rw [any_line_iff]; rintro ⟨kv, hkv, hline⟩; exact hno kv hkv hline
      have h2 : ¬ (removeBranch fc k).branchMap.any (fun kv => decide (kv.2.line = L)) = true := by
        rw [any_line_iff]; rintro ⟨kv, hkv, hline⟩; exact hno kv ((hmemr kv).mp hkv).1 hline
      rw [hl, hr, if_neg h1, if_neg h2]
  · intro hex honly
    have h2 : ¬ (removeBranch fc k).branchMap.any (fun kv => decide (kv.2.line = L)) = true := by
      rw [any_line_iff]; rintro ⟨kv, hkv, hline⟩
      exact ((hmemr kv).mp hkv).2 (honly kv ((hmemr kv).mp hkv).1 hline)
    have hnil : pooled fc L = [] := by
      unfold pooled
      rw [List.flatMap_eq_nil_iff]
      intro kv hkv
      rw [List.mem_filter] at hkv
      have hid : kv.1 = k := honly kv hkv.1 (by simpa using hkv.2)
      rw [hid, hk]; rfl
    rw [hl, hr, if_pos ((any_line_iff _ L).mpr hex), if_neg h2, hnil]
    exact ⟨by decide, rfl⟩

/-- C4 amended, at a record where `b9` has no hit array and shares line 5 with `b1`. -/
theorem branchCoverageByLine_missing_hit_array_witness :
    (⟨[(5, 1)], [("b1", ⟨5⟩), ("b9", ⟨5⟩), ("b3", ⟨7⟩)],
        [("b1", [1, 0]), ("b3", [0, 0])]⟩ : FileCoverage).b.lookup "b9" = none ∧
    (branchCoverageByLine ⟨[(5, 1)], [("b1", ⟨5⟩), ("b9", ⟨5⟩), ("b3", ⟨7⟩)],
        [("b1", [1, 0]), ("b3", [0, 0])]⟩).lookup 5 =
      (branchCoverageByLine (removeBranch ⟨[(5, 1)], [("b1", ⟨5⟩), ("b9", ⟨5⟩), ("b3", ⟨7⟩)],
        [("b1", [1, 0]), ("b3", [0, 0])]⟩ "b9")).lookup 5 ∧
    (branchCoverageByLine missingHitsRecord).lookup 5 = some ⟨0, 0, .nan⟩ ∧
    (branchCoverageByLine (removeBranch missingHitsRecord "b1")).lookup 5 = none :=
  ⟨by decide,
    (branchCoverageByLine_missing_hit_array _ "b9" (by decide) 5).1
      (Or.inl ⟨("b1", ⟨5⟩), by decide, by decide, rfl⟩),
    (branchCoverageByLine_missing_hit_array missingHitsRecord "b1" (by decide) 5).2
      (by decide) (by decide)⟩


/-- C5 fails as stated: at line 5 of the example record total is 3 > 0 and the coverage field
is the binary64 number `4691249611844266 * 2 ^ (-46)` (printed `66.66666666666666`), which is
neither the exact rational `covered / total × 100 = 200 / 3` nor `66.67`. -/
theorem example_coverage_not_exact_percentage :
    ∃ e, (branchCoverageByLine exampleRecord).lookup 5 = some e ∧ 0 < e.total ∧
      e.coverage = JSNumber.finite 4691249611844266 (-46) ∧
      e.coverage.toRat? ≠ some ((e.covered : ℚ) / (e.total : ℚ) * 100) ∧
      e.coverage.toRat? ≠ some (6667 / 100) := by
  refine ⟨⟨2, 3, .finite 4691249611844266 (-46)⟩, by decide, by decide, rfl, ?_, ?_⟩
  · simp only [JSNumber.toRat?, ne_eq, Option.some.injEq]
    rw [zpow_neg]; norm_num
  · simp only [JSNumber.toRat?, ne_eq, Option.some.injEq]
    rw [zpow_neg]; norm_num

/-- C5, amended: for every entry returned by `branchCoverageByLine` with total > 0, the
coverage field is the binary64 result of `covered / total * 100` (the quotient rounded to
nearest, then the product rounded to nearest); it is a finite number within `2 ^ (-45)` of the
exact rational covered / total × 100.  For the example record the percent of line 5 is
`4691249611844266 * 2 ^ (-46)`, which is 66.67 to two decimals, and the percent of line 7
is 0. -/
theorem coverage_is_binary64_percentage :
    (∀ (fc : FileCoverage) (L : ℕ) (e : LineBranchStats),
      (branchCoverageByLine fc).lookup L = some e → 0 < e.total →
        e.coverage = jsMul (jsDiv e.covered e.total) 100 ∧
        ∃ v : ℚ, e.coverage.toRat? = some v ∧
          |v - (e.covered : ℚ) / (e.total : ℚ) * 100| ≤ (2 : ℚ) ^ (-45 : ℤ)) ∧
    ((branchCoverageByLine exampleRecord).lookup 5).map (fun e => e.coverage)
      = some (JSNumber.finite 4691249611844266 (-46)) ∧
    |(4691249611844266 : ℚ) * (2 : ℚ) ^ (-46 : ℤ) - 6667 / 100| < 1 / 200 ∧
    ((branchCoverageByLine exampleRecord).lookup 7).map (fun e => e.coverage)
      = some (JSNumber.finite 0 0) ∧
    (JSNumber.finite 0 0).toRat? = some 0 := by
  refine ⟨?_, by decide, ?_, by decide, by simp [JSNumber.toRat?]⟩
  · intro fc L e he hpos
    rw [lookup_branchCoverageByLine] at he
    split at he
    · have hE : e = lineStats (pooled fc L) := (Option.some.inj he).symm
      subst hE
      refine ⟨rfl, ?_⟩
      have hle : (lineStats (pooled fc L)).covered ≤ (lineStats (pooled fc L)).total :=
        List.length_filter_le _ _
      obtain ⟨m, ex, hfin, herr⟩ := jsMul_jsDiv_error _ _ hle hpos
      refine ⟨(m : ℚ) * (2 : ℚ) ^ ex, ?_, herr⟩
      have hcov : (lineStats (pooled fc L)).coverage
          = jsMul (jsDiv (lineStats (pooled fc L)).covered (lineStats (pooled fc L)).total) 100 :=
        rfl
      rw [hcov, hfin]
      rfl
    · exact absurd he (by simp)
  · rw [zpow_neg, abs_lt]
    constructor <;> norm_num

/-- C5 amended, at line 5 of the example record. -/
theorem coverage_is_binary64_percentage_witness :
    (branchCoverageByLine exampleRecord).lookup 5
      = some ⟨2, 3, .finite 4691249611844266 (-46)⟩ ∧
    0 < 3 ∧
    (JSNumber.finite 4691249611844266 (-46) = jsMul (jsDiv 2 3) 100 ∧
      ∃ v : ℚ, (JSNumber.finite 4691249611844266 (-46)).toRat? = some v ∧
        |v - ((2 : ℕ) : ℚ) / ((3 : ℕ) : ℚ) * 100| ≤ (2 : ℚ) ^ (-45 : ℤ)) :=
  ⟨by decide, by decide,
    coverage_is_binary64_percentage.1 exampleRecord 5
      ⟨2, 3, .finite 4691249611844266 (-46)⟩ (by decide) (by decide)⟩


/-! ## Properties of `addFileStats` -/

theorem foldl_println (f : ℕ × ℕ → String) (lines : List (ℕ × ℕ)) (w : Writer) :
    lines.foldl (fun writer kv => println writer (f kv)) w = w ++ lines.map f := by
  induction lines generalizing w with
  | nil => simp
  | cons kv rest ih =>
    rw [List.foldl_cons, ih]
    simp [println]

/-- The lines that `addFileStats` appends to the writer. -/
theorem addFileStats_eq (ext : Externals) (node : Node) (fc : FileCoverage) (w : Writer)
    (root : String) :
    addFileStats ext node fc w root =
      w ++ (("\t<file" ++ attr "path" (ext.relative root node.fullPath) ++ ">") ::
        ((ext.incrementIgnoredTotals fc).l.map
          (lineToCover (branchCoverageByLine (ext.incrementIgnoredTotals fc)))
          ++ ["\t</file>"])) := by
  unfold addFileStats
  simp only [foldl_println]
  simp only [println, List.append_assoc, List.singleton_append, List.cons_append,
    List.nil_append]

theorem addFileStats_getElem? (ext : Externals) (node : Node) (fc : FileCoverage) (w : Writer)
    (root : String) (i : ℕ) (kv : ℕ × ℕ) (h : (ext.incrementIgnoredTotals fc).l[i]? = some kv) :
    (addFileStats ext node fc w root)[w.length + 1 + i]? =
      some (lineToCover (branchCoverageByLine (ext.incrementIgnoredTotals fc)) kv) := by
  rw [addFileStats_eq]
  have hi : i < (ext.incrementIgnoredTotals fc).l.length := by
    by_contra hcon
    rw [List.getElem?_eq_none (Nat.le_of_not_lt hcon)] at h
    exact absurd h (by simp)
  rw [Nat.add_assoc, List.getElem?_append_right (Nat.le_add_right _ _), Nat.add_sub_cancel_left,
    Nat.add_comm 1 i, List.getElem?_cons_succ, List.getElem?_append_left (by simpa using hi),
    List.getElem?_map, h]
  rfl


theorem lineToCover_of_no_branch (bbl : List (ℕ × LineBranchStats)) (kv : ℕ × ℕ)
    (h : bbl.lookup kv.1 = none) :
    lineToCover bbl kv =
      "\t\t<lineToCover" ++ attr "lineNumber" kv.1 ++
        attr "covered" (if kv.2 = 0 then false else true) ++ attr "branch" false ++ "/>" := by
  unfold lineToCover
  simp only [h]

theorem lineToCover_of_branch (bbl : List (ℕ × LineBranchStats)) (kv : ℕ × ℕ)
    (d : LineBranchStats) (h : bbl.lookup kv.1 = some d) :
    lineToCover bbl kv =
      "\t\t<lineToCover" ++ attr "lineNumber" kv.1 ++
        attr "covered" (if kv.2 = 0 then false else true) ++ attr "branch" true ++
        attr "branchesToCover" d.total ++ attr "coveredBranches" d.covered ++ "/>" := by
  unfold lineToCover
  simp only [h, String.append_assoc]

/-- C6: for every key `k` of the lines mapping with hit count `lines[k]` (the `i`-th property
`kv` of `l`), the element written for it is the line after the opening tag and the elements of
the earlier keys; it starts with the `lineNumber` attribute of `k` followed by
`covered="false"` if the hit count is exactly 0 and by `covered="true"` if it is 1 or more.
The record read is the one returned by `utils.incrementIgnoredTotals`, which `addFileStats`
assigns to `fileCoverage` before it reads `l` and `branchMap`. -/
theorem addFileStats_covered_flag (ext : Externals) (node : Node) (fc : FileCoverage)
    (w : Writer) (root : String) (i : ℕ) (kv : ℕ × ℕ)
    (h : (ext.incrementIgnoredTotals fc).l[i]? = some kv) :
    (kv.2 = 0 → ∃ rest, (addFileStats ext node fc w root)[w.length + 1 + i]? =
      some ("\t\t<lineToCover" ++ attr "lineNumber" kv.1 ++ attr "covered" false ++ rest)) ∧
    (1 ≤ kv.2 → ∃ rest, (addFileStats ext node fc w root)[w.length + 1 + i]? =
      some ("\t\t<lineToCover" ++ attr "lineNumber" kv.1 ++ attr "covered" true ++ rest)) ∧
    attr "covered" false = " covered=\"false\" " ∧ attr "covered" true = " covered=\"true\" " := by
  have hline := addFileStats_getElem? ext node fc w root i kv h
  refine ⟨?_, ?_, by decide, by decide⟩
  · intro h0
    cases hb : (branchCoverageByLine (ext.incrementIgnoredTotals fc)).lookup kv.1 with
    | none =>
      refine ⟨attr "branch" false ++ "/>", ?_⟩
      rw [hline, lineToCover_of_no_branch _ _ hb, if_pos h0, String.append_assoc]
    | some d =>
      refine ⟨attr "branch" true ++ attr "branchesToCover" d.total ++
        attr "coveredBranches" d.covered ++ "/>", ?_⟩
      rw [hline, lineToCover_of_branch _ _ d hb, if_pos h0]
      simp only [String.append_assoc]
  · intro h1
    have hne : ¬ kv.2 = 0 := by omega
    cases hb : (branchCoverageByLine (ext.incrementIgnoredTotals fc)).lookup kv.1 with
    | none =>
      refine ⟨attr "branch" false ++ "/>", ?_⟩
      rw [hline, lineToCover_of_no_branch _ _ hb, if_neg hne, String.append_assoc]
    | some d =>
      refine ⟨attr "branch" true ++ attr "branchesToCover" d.total ++
        attr "coveredBranches" d.covered ++ "/>", ?_⟩
      rw [hline, lineToCover_of_branch _ _ d hb, if_neg hne]
      simp only [String.append_assoc]

/-- C6, for the keys 6 (hit count 0) and 5 (hit count 1) of the example record. -/
theorem addFileStats_covered_flag_witness :
    (idExternals.incrementIgnoredTotals exampleRecord).l[1]? = some (6, 0) ∧
    (∃ rest, (addFileStats idExternals exampleFile exampleRecord [] "/p")[0 + 1 + 1]? =
      some ("\t\t<lineToCover" ++ attr "lineNumber" 6 ++ attr "covered" false ++ rest)) ∧
    (idExternals.incrementIgnoredTotals exampleRecord).l[0]? = some (5, 1) ∧
    (∃ rest, (addFileStats idExternals exampleFile exampleRecord [] "/p")[0 + 1 + 0]? =
      some ("\t\t<lineToCover" ++ attr "lineNumber" 5 ++ attr "covered" true ++ rest)) :=
  ⟨by decide,
    (addFileStats_covered_flag idExternals exampleFile exampleRecord [] "/p" 1 (6, 0)
      (by decide)).1 rfl,
    by decide,
    (addFileStats_covered_flag idExternals exampleFile exampleRecord [] "/p" 0 (5, 1)
      (by decide)).2.1 (by decide)⟩


/-- C8: for every key `k` of the lines mapping that is the line of at least one branch of
`branchMap`, `branchCoverageByLine` has an entry `d` at `k` (its total is the number of
outcomes pooled for `k` and its covered the number of those with a hit count above 0), and
the element written for `k` carries, in this order and with nothing else, the attributes
`lineNumber`, `covered`, `branch="true"`, `branchesToCover` equal to `d.total` and
`coveredBranches` equal to `d.covered`.  The record read is the one returned by
`utils.incrementIgnoredTotals`. -/
theorem addFileStats_branch_line (ext : Externals) (node : Node) (fc : FileCoverage)
    (w : Writer) (root : String) (i : ℕ) (kv : ℕ × ℕ)
    (h : (ext.incrementIgnoredTotals fc).l[i]? = some kv)
    (hb : ∃ b ∈ (ext.incrementIgnoredTotals fc).branchMap, b.2.line = kv.1) :
    ∃ d, (branchCoverageByLine (ext.incrementIgnoredTotals fc)).lookup kv.1 = some d ∧
      d.total = (pooled (ext.incrementIgnoredTotals fc) kv.1).length ∧
      d.covered = (pooled (ext.incrementIgnoredTotals fc) kv.1).countP
        (fun item => decide (item > 0)) ∧
      (addFileStats ext node fc w root)[w.length + 1 + i]? =
        some ("\t\t<lineToCover" ++ attr "lineNumber" kv.1 ++
          attr "covered" (if kv.2 = 0 then false else true) ++ attr "branch" true ++
          attr "branchesToCover" d.total ++ attr "coveredBranches" d.covered ++ "/>") ∧
      attr "branch" true = " branch=\"true\" " ∧
      attr "branchesToCover" d.total = " branchesToCover=\"" ++ toString d.total ++ "\" " ∧
      attr "coveredBranches" d.covered
        = " coveredBranches=\"" ++ toString d.covered ++ "\" " := by
  have hline := addFileStats_getElem? ext node fc w root i kv h
  have hlook := lookup_branchCoverageByLine (ext.incrementIgnoredTotals fc) kv.1
  rw [if_pos ((any_line_iff _ _).mpr hb)] at hlook
  refine ⟨_, hlook, rfl, ?_, ?_, by decide, ?_, ?_⟩
  · exact (List.countP_eq_length_filter _ _).symm
  · rw [hline, lineToCover_of_branch _ _ _ hlook]
  · apply String.ext
    simp [attr, quote, String.data_append]
  · apply String.ext
    simp [attr, quote, String.data_append]

/-- C8, for the key 5 of the example record. -/
theorem addFileStats_branch_line_witness :
    (idExternals.incrementIgnoredTotals exampleRecord).l[0]? = some (5, 1) ∧
    (∃ b ∈ (idExternals.incrementIgnoredTotals exampleRecord).branchMap, b.2.line = 5) ∧
    (addFileStats idExternals exampleFile exampleRecord [] "/p")[1]? = some
      ("\t\t<lineToCover lineNumber=\"5\"  covered=\"true\"  branch=\"true\" " ++
        " branchesToCover=\"3\"  coveredBranches=\"2\" />") := by
  have h := addFileStats_branch_line idExternals exampleFile exampleRecord [] "/p" 0 (5, 1)
    (by decide) (by decide)
  obtain ⟨d, hd, -, -, hline, -⟩ := h
  have hd' : d = ⟨2, 3, .finite 4691249611844266 (-46)⟩ :=
    Option.some.inj (hd.symm.trans (by decide))
  subst hd'
  exact ⟨by decide, by decide, hline.trans (by decide)⟩

theorem digitChar_isDigit (d : ℕ) (h : d < 10) : (Nat.digitChar d).isDigit = true := by
  interval_cases d <;> decide

theorem toDigitsCore_isDigit (fuel n : ℕ) (ds : List Char)
    (h : ∀ c ∈ ds, c.isDigit = true) : ∀ c ∈ Nat.toDigitsCore 10 fuel n ds, c.isDigit = true := by
  induction fuel generalizing n ds with
  | zero => simpa [Nat.toDigitsCore] using h
  | succ f ih =>
    have hd : ∀ c ∈ Nat.digitChar (n % 10) :: ds, c.isDigit = true := by
      intro c hc
      rcases List.mem_cons.mp hc with rfl | hc
      · exact digitChar_isDigit _ (Nat.mod_lt _ (by decide))
      · exact h c hc
    unfold Nat.toDigitsCore
    simp only
    split
    · exact hd
    · exact ih _ _ hd

/-- The decimal numeral of a natural number consists of digits. -/
theorem toString_nat_isDigit (k : ℕ) : ∀ c ∈ (toString k).data, c.isDigit = true :=
  toDigitsCore_isDigit (k + 1) k [] (by simp)

theorem infix_of_infix_insert {α : Type} (P X Y : List α) (d : α) (hd : d ∉ P)
    (h : P <:+: X ++ d :: Y) : P <:+: X ++ Y := by
  induction X with
  | nil =>
    rw [List.nil_append] at h ⊢
    rcases List.infix_cons_iff.mp h with hp | hi
    · cases P with
      | nil => exact List.nil_infix
      | cons p P' =>
        have := (List.cons_prefix_cons.mp hp).1
        exact absurd (this ▸ List.mem_cons_self p P') hd
    · exact hi
  | cons x X' ih =>
    rw [List.cons_append] at h ⊢
    rcases List.infix_cons_iff.mp h with hp | hi
    · have hX : x :: X' <+: x :: (X' ++ d :: Y) := by
        rw [← List.cons_append]; exact List.prefix_append _ _
      rcases List.prefix_or_prefix_of_prefix hp hX with h1 | h2
      · have h3 : P <+: x :: (X' ++ Y) := by
          rw [← List.cons_append]; exact h1.trans (List.prefix_append _ _)
        exact h3.isInfix
      · obtain ⟨P2, rfl⟩ := h2
        rw [← List.cons_append, List.prefix_append_right_inj] at hp
        cases P2 with
        | nil =>
          rw [List.append_nil, ← List.cons_append]
          exact (List.prefix_append _ _).isInfix
        | cons p P2' =>
          have := (List.cons_prefix_cons.mp hp).1
          exact absurd (by rw [← this]; simp) hd
    · exact List.infix_cons_iff.mpr (Or.inr (ih hi))

theorem infix_of_infix_insert_list {α : Type} (P X Y D : List α) (hD : ∀ d ∈ D, d ∉ P)
    (h : P <:+: X ++ (D ++ Y)) : P <:+: X ++ Y := by
  induction D with
  | nil => simpa using h
  | cons d D' ih =>
    apply ih (fun c hc => hD c (List.mem_cons_of_mem _ hc))
    exact infix_of_infix_insert P X (D' ++ Y) d (hD d (List.mem_cons_self _ _)) h

/-- A text without digits that occurs in `pre ++ toString k ++ post` occurs in
`pre ++ post`. -/
theorem mentions_of_mentions_numeral (name pre post : String) (k : ℕ)
    (hname : ∀ c ∈ name.data, c.isDigit = false)
    (h : mentions name (pre ++ toString k ++ post)) : mentions name (pre ++ post) := by
  unfold mentions at h ⊢
  rw [String.data_append, String.data_append, List.append_assoc] at h
  rw [String.data_append]
  apply infix_of_infix_insert_list _ _ _ _ _ h
  intro d hd hmem
  have h1 := toString_nat_isDigit k d hd
  rw [hname d hmem] at h1
  exact absurd h1 (by simp)

theorem no_branch_line_eq (k : ℕ) (c : Bool) :
    "\t\t<lineToCover" ++ attr "lineNumber" k ++ attr "covered" c ++ attr "branch" false ++ "/>"
      = "\t\t<lineToCover lineNumber=\"" ++ toString k ++
          ("\"  covered=\"" ++ toString c ++ "\"  branch=\"false\" />") := by
  apply String.ext
  simp [attr, quote, String.data_append]
  rfl

theorem no_branch_line_mentions (k : ℕ) (c : Bool) :
    ¬ mentions "branchesToCover"
      ("\t\t<lineToCover" ++ attr "lineNumber" k ++ attr "covered" c ++ attr "branch" false
        ++ "/>") ∧
    ¬ mentions "coveredBranches"
      ("\t\t<lineToCover" ++ attr "lineNumber" k ++ attr "covered" c ++ attr "branch" false
        ++ "/>") := by
  rw [no_branch_line_eq]
  constructor
  · intro h
    have h2 := mentions_of_mentions_numeral _ _ _ _ (by decide) h
    cases c
    · exact absurd h2 (by decide)
    · exact absurd h2 (by decide)
  · intro h
    have h2 := mentions_of_mentions_numeral _ _ _ _ (by decide) h
    cases c
    · exact absurd h2 (by decide)
    · exact absurd h2 (by decide)

/-- C7: for every key `k` of the lines mapping that is the line of no branch of `branchMap`,
the element written for `k` consists of the attributes `lineNumber`, `covered` and
`branch="false"` and nothing else; the texts `branchesToCover` and `coveredBranches` do not
occur in it.  The record read is the one returned by `utils.incrementIgnoredTotals`. -/
theorem addFileStats_no_branch_line (ext : Externals) (node : Node) (fc : FileCoverage)
    (w : Writer) (root : String) (i : ℕ) (kv : ℕ × ℕ)
    (h : (ext.incrementIgnoredTotals fc).l[i]? = some kv)
    (hb : ∀ b ∈ (ext.incrementIgnoredTotals fc).branchMap, b.2.line ≠ kv.1) :
    ∃ line, (addFileStats ext node fc w root)[w.length + 1 + i]? = some line ∧
      line = "\t\t<lineToCover" ++ attr "lineNumber" kv.1 ++
        attr "covered" (if kv.2 = 0 then false else true) ++ attr "branch" false ++ "/>" ∧
      attr "branch" false = " branch=\"false\" " ∧
      ¬ mentions "branchesToCover" line ∧ ¬ mentions "coveredBranches" line := by
  have hline := addFileStats_getElem? ext node fc w root i kv h
  have hlook := lookup_branchCoverageByLine (ext.incrementIgnoredTotals fc) kv.1
  have hany : ¬ (ext.incrementIgnoredTotals fc).branchMap.any
      (fun b => decide (b.2.line = kv.1)) = true := by
    rw [any_line_iff]
    rintro ⟨b, hbm, hl⟩
    exact hb b hbm hl
  rw [if_neg hany] at hlook
  refine ⟨_, by rw [hline, lineToCover_of_no_branch _ _ hlook], rfl, by decide, ?_⟩
  exact no_branch_line_mentions kv.1 _

/-- C7, for the key 6 of the example record. -/
theorem addFileStats_no_branch_line_witness :
    (idExternals.incrementIgnoredTotals exampleRecord).l[1]? = some (6, 0) ∧
    (∀ b ∈ (idExternals.incrementIgnoredTotals exampleRecord).branchMap, b.2.line ≠ 6) ∧
    (addFileStats idExternals exampleFile exampleRecord [] "/p")[2]? = some
      "\t\t<lineToCover lineNumber=\"6\"  covered=\"false\"  branch=\"false\" />" :=
  ⟨by decide, by decide, by
    obtain ⟨line, hline, heq, -⟩ :=
      addFileStats_no_branch_line idExternals exampleFile exampleRecord [] "/p" 1 (6, 0)
        (by decide) (by decide)
    rw [heq] at hline
    exact hline.trans (by decide)⟩


/-- The block that `addFileStats` writes when `utils.incrementIgnoredTotals` returns: the
opening `<file>` line, one `lineToCover` line per property of the lines mapping `l` of the
returned record, in key order, and the closing `</file>` line. -/
theorem addFileStats_block (ext : Externals) (node : Node)
    (fc : FileCoverage) (w : Writer) (root : String) :
    addFileStats ext node fc w root =
      w ++ ["\t<file" ++ attr "path" (ext.relative root node.fullPath) ++ ">"] ++
        (ext.incrementIgnoredTotals fc).l.map
          (lineToCover (branchCoverageByLine (ext.incrementIgnoredTotals fc))) ++
        ["\t</file>"] ∧
    attr "path" (ext.relative root node.fullPath)
      = " path=\"" ++ ext.relative root node.fullPath ++ "\" " ∧
    (addFileStats ext node fc w root).length
      = w.length + ((ext.incrementIgnoredTotals fc).l.length + 2) ∧
    (∀ (i : ℕ) (kv : ℕ × ℕ), (ext.incrementIgnoredTotals fc).l[i]? = some kv →
      ∃ rest, (addFileStats ext node fc w root)[w.length + 1 + i]? =
        some ("\t\t<lineToCover" ++ " lineNumber=\"" ++ toString kv.1 ++ "\" " ++ rest ++ "/>")) := by
  refine ⟨?_, ?_, ?_, ?_⟩
  · rw [addFileStats_eq]; simp
  · apply String.ext
    simp [attr, quote, String.data_append]
    rfl
  · rw [addFileStats_eq]; simp
  · intro i kv h
    rw [addFileStats_getElem? ext node fc w root i kv h]
    have hattr : attr "lineNumber" kv.1 = " lineNumber=\"" ++ toString kv.1 ++ "\" " := by
      apply String.ext
      simp [attr, quote, String.data_append]
    cases hb : (branchCoverageByLine (ext.incrementIgnoredTotals fc)).lookup kv.1 with
    | none =>
      refine ⟨attr "covered" (if kv.2 = 0 then false else true) ++ attr "branch" false, ?_⟩
      rw [lineToCover_of_no_branch _ _ hb, hattr]
      simp only [String.append_assoc]
    | some d =>
      refine ⟨attr "covered" (if kv.2 = 0 then false else true) ++ attr "branch" true ++
        attr "branchesToCover" d.total ++ attr "coveredBranches" d.covered, ?_⟩
      rw [lineToCover_of_branch _ _ d hb, hattr]
      simp only [String.append_assoc]

/-- When `utils.incrementIgnoredTotals` returns, `addFileStatsE` is `addFileStats` with the
returned record. -/
theorem addFileStatsE_of_returns (ext : FallibleExternals) (node : Node) (fc fc' : FileCoverage)
    (w : Writer) (root : String) (h : ext.incrementIgnoredTotals fc = some fc') :
    addFileStatsE ext node fc w root = .ok (addFileStats (ext.returning fc') node fc w root) := by
  unfold addFileStatsE addFileStats
  simp only [h]
  rfl

theorem addFileStatsE_of_throws (ext : FallibleExternals) (node : Node) (fc : FileCoverage)
    (w : Writer) (root : String) (h : ext.incrementIgnoredTotals fc = none) :
    addFileStatsE ext node fc w root =
      .error (w ++ ["\t<file" ++ attr "path" (ext.relative root node.fullPath) ++ ">"]) := by
  unfold addFileStatsE
  simp only [h]
  rfl

/-- C9 fails as stated: in `missingHitsRecord` the lines mapping has one key and the branch
id `b1` has no hit array.  `utils.incrementIgnoredTotals` throws on it, after `addFileStats`
has written the opening `<file>` line: one line is written, not `|lines| + 2 = 3`, and the
call does not return. -/
theorem addFileStats_stops_when_library_call_throws :
    missingHitsRecord.l.length = 1 ∧
    strictExternals.incrementIgnoredTotals missingHitsRecord = none ∧
    addFileStatsE strictExternals exampleFile missingHitsRecord [] "/p"
      = Except.error ["\t<file path=\"/p/a.js\" >"] ∧
    ["\t<file path=\"/p/a.js\" >"].length ≠ missingHitsRecord.l.length + 2 :=
  ⟨by decide, by decide, rfl, by decide⟩

/-- C9, amended: for every file node and every file coverage record on which the call of
`utils.incrementIgnoredTotals` returns, `addFileStats` returns after writing exactly
`|lines| + 2` lines, where `lines` is the lines mapping `l` of the returned record: the
opening `<file>` line, whose `path` attribute is `path.relative(projectRoot, node.fullPath())`,
then one self-closing `lineToCover` line per key of `lines`, in key order and carrying that
key as `lineNumber`, whatever `branchMap` holds, then the closing `</file>` line.  When the
library call throws, `addFileStats` is left with only the opening line written. -/
theorem addFileStats_writes_block_when_library_call_returns (ext : FallibleExternals)
    (node : Node) (fc : FileCoverage) (w : Writer) (root : String) :
    (∀ fc' : FileCoverage, ext.incrementIgnoredTotals fc = some fc' →
      ∃ out : Writer, addFileStatsE ext node fc w root = Except.ok out ∧
        out = w ++ ["\t<file" ++ attr "path" (ext.relative root node.fullPath) ++ ">"] ++
          fc'.l.map (lineToCover (branchCoverageByLine fc')) ++ ["\t</file>"] ∧
        out.length = w.length + (fc'.l.length + 2) ∧
        (∀ (i : ℕ) (kv : ℕ × ℕ), fc'.l[i]? = some kv →
          ∃ rest, out[w.length + 1 + i]? =
            some ("\t\t<lineToCover" ++ " lineNumber=\"" ++ toString kv.1 ++ "\" " ++ rest
              ++ "/>"))) ∧
    attr "path" (ext.relative root node.fullPath)
      = " path=\"" ++ ext.relative root node.fullPath ++ "\" " ∧
    (ext.incrementIgnoredTotals fc = none →
      addFileStatsE ext node fc w root = Except.error
        (w ++ ["\t<file" ++ attr "path" (ext.relative root node.fullPath) ++ ">"])) := by
  have hblock := fun fc' => addFileStats_block (ext.returning fc') node fc w root
  refine ⟨?_, (hblock fc).2.1, addFileStatsE_of_throws ext node fc w root⟩
  intro fc' h
  obtain ⟨h1, -, h3, h4⟩ := hblock fc'
  exact ⟨_, addFileStatsE_of_returns ext node fc fc' w root h, h1, h3, h4⟩

/-- C9 amended, for the example file: the library call returns, three keys, five lines. -/
theorem addFileStats_writes_block_when_library_call_returns_witness :
    strictExternals.incrementIgnoredTotals exampleRecord = some exampleRecord ∧
    ∃ out : Writer,
      addFileStatsE strictExternals exampleFile exampleRecord [] "/p" = Except.ok out ∧
      out.length = 0 + (3 + 2) ∧
      out[0 + 1 + 2]? = some
        ("\t\t<lineToCover lineNumber=\"7\"  covered=\"true\"  branch=\"true\" " ++
          " branchesToCover=\"2\"  coveredBranches=\"0\" />") := by
  obtain ⟨out, hok, heq, hlen, -⟩ :=
    (addFileStats_writes_block_when_library_call_returns strictExternals exampleFile
      exampleRecord [] "/p").1 exampleRecord (by decide)
  refine ⟨by decide, out, hok, hlen, ?_⟩
  rw [heq]
  decide

/-! ## Properties of `walk` -/

theorem startsWithTab_append (s t : String) (h : startsWithTab s) : startsWithTab (s ++ t) := by
  unfold startsWithTab at h ⊢
  rw [String.data_append]
  cases hs : s.data with
  | nil => rw [hs] at h; exact absurd h (by simp)
  | cons c cs => rw [hs] at h; simpa using h

theorem startsWithTab_lineToCover (bbl : List (ℕ × LineBranchStats)) (kv : ℕ × ℕ) :
    startsWithTab (lineToCover bbl kv) := by
  have h0 : startsWithTab "\t\t<lineToCover" := by decide
  unfold lineToCover
  simp only
  split
  · exact startsWithTab_append _ _ (startsWithTab_append _ _
      (startsWithTab_append _ _ (startsWithTab_append _ _ h0)))
  · exact startsWithTab_append _ _ (startsWithTab_append _ _
      (startsWithTab_append _ _ (startsWithTab_append _ _ h0)))

theorem not_startsWithTab_coverageOpen : ¬ startsWithTab coverageOpen := by decide

theorem not_startsWithTab_coverageClose : ¬ startsWithTab coverageClose := by decide

/-- Every line that `addFileStats` writes begins with a tab. -/
theorem addFileStats_lines (ext : Externals) (node : Node) (fc : FileCoverage) (root : String) :
    ∃ ls : List String, (∀ s ∈ ls, startsWithTab s) ∧
      ∀ w, addFileStats ext node fc w root = w ++ ls := by
  refine ⟨_, ?_, fun w => addFileStats_eq ext node fc w root⟩
  intro s hs
  simp only [List.mem_cons, List.mem_append, List.mem_map, List.mem_singleton,
    List.not_mem_nil, or_false] at hs
  rcases hs with rfl | ⟨kv, -, rfl⟩ | rfl
  · exact startsWithTab_append _ _ (startsWithTab_append _ _ (by decide))
  · exact startsWithTab_lineToCover _ _
  · decide

/-- The `forEach` over the file children writes only lines that begin with a tab. -/
theorem foldl_addFileStats_lines (ext : Externals) (collector : Collector) (root : String)
    (files : List Node) :
    ∃ ls : List String, (∀ s ∈ ls, startsWithTab s) ∧
      ∀ w, files.foldl (fun writer child =>
        addFileStats ext child (collector.fileCoverageFor child.fullPath) writer root) w
          = w ++ ls := by
  induction files with
  | nil => exact ⟨[], by simp, by simp⟩
  | cons f rest ih =>
    obtain ⟨ls1, h1, e1⟩ := addFileStats_lines ext f (collector.fileCoverageFor f.fullPath) root
    obtain ⟨ls2, h2, e2⟩ := ih
    refine ⟨ls1 ++ ls2, ?_, ?_⟩
    · intro s hs
      rcases List.mem_append.mp hs with h | h
      · exact h1 s h
      · exact h2 s h
    · intro w
      rw [List.foldl_cons, e2, e1, List.append_assoc]

mutual
/-- Below the root, `walk` writes only lines that begin with a tab. -/
theorem walk_succ_lines (ext : Externals) (collector : Collector) (root : String) :
    (node : Node) → (level : ℕ) →
      ∃ ls : List String, (∀ s ∈ ls, startsWithTab s) ∧
        ∀ w, walk ext collector node w (level + 1) root = w ++ ls
  | .mk _ _ pm children, level => by
    obtain ⟨ls2, h2, e2⟩ := walkDirs_lines ext collector root children (level + 1)
    cases pm with
    | false =>
      refine ⟨ls2, h2, ?_⟩
      intro w
      simp [walk, e2]
    | true =>
      obtain ⟨ls1, h1, e1⟩ := foldl_addFileStats_lines ext collector root
        (children.filter (fun child => child.kind != "dir"))
      refine ⟨ls1 ++ ls2, ?_, ?_⟩
      · intro s hs
        rcases List.mem_append.mp hs with h | h
        · exact h1 s h
        · exact h2 s h
      · intro w
        simp [walk, e1, e2]
/-- The loop over the directory children writes only lines that begin with a tab. -/
theorem walkDirs_lines (ext : Externals) (collector : Collector) (root : String) :
    (children : List Node) → (level : ℕ) →
      ∃ ls : List String, (∀ s ∈ ls, startsWithTab s) ∧
        ∀ w, walkDirs ext collector children w (level + 1) root = w ++ ls
  | [], _ => ⟨[], by simp, by simp [walkDirs]⟩
  | child :: rest, level => by
    obtain ⟨ls2, h2, e2⟩ := walkDirs_lines ext collector root rest level
    by_cases hk : child.kind = "dir"
    · obtain ⟨ls1, h1, e1⟩ := walk_succ_lines ext collector root child level
      refine ⟨ls1 ++ ls2, ?_, ?_⟩
      · intro s hs
        rcases List.mem_append.mp hs with h | h
        · exact h1 s h
        · exact h2 s h
      · intro w
        rw [walkDirs, if_pos hk, e2, e1, List.append_assoc]
    · refine ⟨ls2, h2, ?_⟩
      intro w
      rw [walkDirs, if_neg hk, e2]
end


/-- The recursion of `walkDirs` is the source's `filter` and `forEach`: a left fold of `walk`
over the children of kind `dir`. -/
theorem walkDirs_eq_foldl (ext : Externals) (collector : Collector) (root : String)
    (level : ℕ) (children : List Node) (w : Writer) :
    walkDirs ext collector children w level root =
      (children.filter (fun child => child.kind == "dir")).foldl
        (fun writer child => walk ext collector child writer level root) w := by
  induction children generalizing w with
  | nil => simp [walkDirs]
  | cons child rest ih =>
    rw [walkDirs]
    by_cases hk : child.kind = "dir"
    · rw [if_pos hk, ih]
      simp [List.filter_cons, hk]
    · rw [if_neg hk, ih]
      simp [List.filter_cons, hk]

/-- At level 0 `walk` writes the opening root tag, then lines that begin with a tab, then the
closing root tag. -/
theorem walk_zero_lines (ext : Externals) (collector : Collector) (root : String)
    (node : Node) :
    ∃ ls : List String, (∀ s ∈ ls, startsWithTab s) ∧
      ∀ w, walk ext collector node w 0 root = w ++ coverageOpen :: (ls ++ [coverageClose]) := by
  obtain ⟨k, fp, pm, children⟩ := node
  obtain ⟨ls2, h2, e2⟩ := walkDirs_lines ext collector root children 0
  cases pm with
  | false =>
    refine ⟨ls2, h2, ?_⟩
    intro w
    simp [walk, e2, println]
  | true =>
    obtain ⟨ls1, h1, e1⟩ := foldl_addFileStats_lines ext collector root
      (children.filter (fun child => child.kind != "dir"))
    refine ⟨ls1 ++ ls2, ?_, ?_⟩
    · intro s hs
      rcases List.mem_append.mp hs with h | h
      · exact h1 s h
      · exact h2 s h
    · intro w
      simp [walk, e1, e2, println]

theorem not_mem_of_all_startsWithTab (ls : List String) (h : ∀ s ∈ ls, startsWithTab s) :
    coverageOpen ∉ ls ∧ coverageClose ∉ ls :=
  ⟨fun hm => not_startsWithTab_coverageOpen (h _ hm),
    fun hm => not_startsWithTab_coverageClose (h _ hm)⟩

/-- C10: for every summary tree, the lines written by `walk` at level 0 are the line
`<coverage version="1">`, then lines that are neither root tag, then the line `</coverage>`;
each of the two root tags occurs exactly once in the output, and a call at a level above 0
writes neither. -/
theorem walk_root_tags_exactly_once (ext : Externals) (collector : Collector) (node : Node)
    (root : String) :
    (∃ body : List String, coverageOpen ∉ body ∧ coverageClose ∉ body ∧
      ∀ w, walk ext collector node w 0 root = w ++ coverageOpen :: (body ++ [coverageClose])) ∧
    (walk ext collector node [] 0 root).head? = some coverageOpen ∧
    (walk ext collector node [] 0 root).getLast? = some coverageClose ∧
    (walk ext collector node [] 0 root).count coverageOpen = 1 ∧
    (walk ext collector node [] 0 root).count coverageClose = 1 ∧
    (∀ level : ℕ, 0 < level → ∃ ls : List String, coverageOpen ∉ ls ∧ coverageClose ∉ ls ∧
      ∀ w, walk ext collector node w level root = w ++ ls) ∧
    coverageOpen = "<coverage version=\"1\">" ∧ coverageClose = "</coverage>" := by
  obtain ⟨body, hbody, hwalk⟩ := walk_zero_lines ext collector root node
  obtain ⟨hopen, hclose⟩ := not_mem_of_all_startsWithTab body hbody
  have hne : coverageOpen ≠ coverageClose := by decide
  have hout := hwalk []
  rw [List.nil_append] at hout
  refine ⟨⟨body, hopen, hclose, hwalk⟩, ?_, ?_, ?_, ?_, ?_, rfl, rfl⟩
  · rw [hout]; rfl
  · rw [hout, ← List.cons_append, List.getLast?_append]
    simp
  · rw [hout, List.count_cons_self, List.count_append, List.count_eq_zero_of_not_mem hopen]
    have h0 : List.count coverageOpen [coverageClose] = 0 :=
      List.count_eq_zero_of_not_mem (by simpa using hne)
    rw [h0]
  · rw [hout, List.count_cons, List.count_append, List.count_eq_zero_of_not_mem hclose]
    simp [hne]
  · intro level hlevel
    obtain ⟨n, rfl⟩ : ∃ n, level = n + 1 := ⟨level - 1, by omega⟩
    obtain ⟨ls, hls, e⟩ := walk_succ_lines ext collector root node n
    obtain ⟨h1, h2⟩ := not_mem_of_all_startsWithTab ls hls
    exact ⟨ls, h1, h2, e⟩

/-- C10, for the example tree visited at level 1. -/
theorem walk_root_tags_exactly_once_witness :
    0 < 1 ∧
    ∃ ls : List String, coverageOpen ∉ ls ∧ coverageClose ∉ ls ∧
      ∀ w, walk idExternals exampleCollector exampleTree w 1 "/p" = w ++ ls :=
  ⟨by decide,
    (walk_root_tags_exactly_once idExternals exampleCollector exampleTree "/p").2.2.2.2.2.1
      1 (by decide)⟩

/-! ## Rounding and the grid of binary64 numbers -/

theorem roundHalfEven_le (n d N : ℕ) (hd : 0 < d) (h : n ≤ N * d) : roundHalfEven n d ≤ N := by
  have hf : n / d ≤ N := by
    calc n / d ≤ N * d / d := Nat.div_le_div_right h
      _ = N := Nat.mul_div_cancel N hd
  rcases Nat.lt_or_ge (n / d) N with hlt | hge
  · unfold roundHalfEven
    simp only
    split
    · omega
    · split
      · omega
      · split <;> omega
  · have hfe : n / d = N := Nat.le_antisymm hf hge
    have hmod : n % d = 0 := by
      have h1 := Nat.div_add_mod n d
      rw [hfe] at h1
      have h2 : d * N = N * d := Nat.mul_comm d N
      omega
    unfold roundHalfEven
    simp only [hmod, Nat.mul_zero, hd, if_true, hfe, le_refl]

theorem le_roundHalfEven (n d N : ℕ) (hd : 0 < d) (h : N * d ≤ n) : N ≤ roundHalfEven n d := by
  have hf : N ≤ n / d := (Nat.le_div_iff_mul_le hd).mpr h
  unfold roundHalfEven
  simp only
  split
  · exact hf
  · split
    · omega
    · split <;> omega


theorem grid_point (B : ℕ) (e j : ℤ) (h : e ≤ j) :
    (B : ℚ) * (2 : ℚ) ^ j = ((B * 2 ^ (j - e).toNat : ℕ) : ℚ) * (2 : ℚ) ^ e := by
  have h1 : ((j - e).toNat : ℤ) = j - e := Int.toNat_of_nonneg (by omega)
  have h2 : (2 : ℚ) ^ (j - e).toNat = (2 : ℚ) ^ (j - e) := by
    rw [← zpow_natCast, h1]
  push_cast
  rw [h2, mul_assoc, ← zpow_add₀ (by norm_num : (2 : ℚ) ≠ 0)]
  congr 2
  ring

/-- Rounding does not cross a number of the grid it rounds to: a bound `B * 2 ^ j` on the
quotient, with `2 ^ j` a multiple of the quantum, is a bound on the result of `round64`. -/
theorem round64_grid (n d : ℕ) (hn : 0 < n) (hd : 0 < d) (K : ℤ)
    (hK : (n : ℚ) / (d : ℚ) < (2 : ℚ) ^ (K + 1)) (hK1 : K < 52) (hK2 : -1022 ≤ K) :
    ∃ m e, round64 n d = .finite m e ∧ e ≤ K - 52 ∧
      (∀ (B : ℕ) (j : ℤ), e ≤ j → (n : ℚ) / (d : ℚ) ≤ (B : ℚ) * (2 : ℚ) ^ j →
        (m : ℚ) * (2 : ℚ) ^ e ≤ (B : ℚ) * (2 : ℚ) ^ j) ∧
      (∀ (B : ℕ) (j : ℤ), e ≤ j → (B : ℚ) * (2 : ℚ) ^ j ≤ (n : ℚ) / (d : ℚ) →
        (B : ℚ) * (2 : ℚ) ^ j ≤ (m : ℚ) * (2 : ℚ) ^ e) := by
  obtain ⟨hf1, -⟩ := floorLog2_spec n d hn hd
  have hfl : floorLog2 n d < K + 1 :=
    (zpow_lt_zpow_iff_right₀ (by norm_num : (1 : ℚ) < 2)).mp (lt_of_le_of_lt hf1 hK)
  have he : max (floorLog2 n d - 52) (-1074) ≤ K - 52 := by
    apply max_le <;> omega
  obtain ⟨hp2, hp⟩ := scale_spec n d (max (floorLog2 n d - 52) (-1074)) hd
  have hp2q : (0 : ℚ) < ((scale n d (max (floorLog2 n d - 52) (-1074))).2 : ℚ) := by
    exact_mod_cast hp2
  have h2pos : (0 : ℚ) < (2 : ℚ) ^ (max (floorLog2 n d - 52) (-1074)) :=
    zpow_pos (by norm_num) _
  refine ⟨roundHalfEven (scale n d (max (floorLog2 n d - 52) (-1074))).1
    (scale n d (max (floorLog2 n d - 52) (-1074))).2, max (floorLog2 n d - 52) (-1074), ?_, he,
    ?_, ?_⟩
  · unfold round64
    rw [if_neg (Nat.pos_iff_ne_zero.mp hn)]
    simp only
    rw [if_neg]
    intro hcon
    omega
  · intro B j hj hle
    rw [grid_point B _ j hj] at hle ⊢
    apply mul_le_mul_of_nonneg_right _ (le_of_lt h2pos)
    have h1 : ((scale n d (max (floorLog2 n d - 52) (-1074))).1 : ℚ)
        / ((scale n d (max (floorLog2 n d - 52) (-1074))).2 : ℚ)
        ≤ ((B * 2 ^ (j - max (floorLog2 n d - 52) (-1074)).toNat : ℕ) : ℚ) := by
      rw [hp, div_le_iff₀ h2pos]; exact hle
    rw [div_le_iff₀ hp2q] at h1
    have h2 : (scale n d (max (floorLog2 n d - 52) (-1074))).1
        ≤ (B * 2 ^ (j - max (floorLog2 n d - 52) (-1074)).toNat)
          * (scale n d (max (floorLog2 n d - 52) (-1074))).2 := by
      exact_mod_cast h1
    exact_mod_cast roundHalfEven_le _ _ _ hp2 h2
  · intro B j hj hle
    rw [grid_point B _ j hj] at hle ⊢
    apply mul_le_mul_of_nonneg_right _ (le_of_lt h2pos)
    have h1 : ((B * 2 ^ (j - max (floorLog2 n d - 52) (-1074)).toNat : ℕ) : ℚ)
        ≤ ((scale n d (max (floorLog2 n d - 52) (-1074))).1 : ℚ)
        / ((scale n d (max (floorLog2 n d - 52) (-1074))).2 : ℚ) := by
      rw [hp, le_div_iff₀ h2pos]; exact hle
    rw [le_div_iff₀ hp2q] at h1
    have h2 : (B * 2 ^ (j - max (floorLog2 n d - 52) (-1074)).toNat)
          * (scale n d (max (floorLog2 n d - 52) (-1074))).2
        ≤ (scale n d (max (floorLog2 n d - 52) (-1074))).1 := by
      exact_mod_cast h1
    exact_mod_cast le_roundHalfEven _ _ _ hp2 h2


/-- The binary64 percentage `c / t * 100` for `c ≤ t`, `t > 0`: it is finite, between 0 and
100, it is 0 for `c = 0` and 100 for `c = t`, and for arrays of a length that JavaScript allows
(below `2 ^ 32`) it is below 100 for `c < t` and above 0 for `c > 0`. -/
theorem percentage_bounds (c t : ℕ) (hc : c ≤ t) (ht : 0 < t) :
    ∃ m e, jsMul (jsDiv c t) 100 = .finite m e ∧
      (m : ℚ) * (2 : ℚ) ^ e ≤ 100 ∧
      (c = 0 → (m : ℚ) * (2 : ℚ) ^ e = 0) ∧
      (c = t → (m : ℚ) * (2 : ℚ) ^ e = 100) ∧
      (t < 2 ^ 32 → c < t → (m : ℚ) * (2 : ℚ) ^ e < 100) ∧
      (t < 2 ^ 32 → 0 < c → 0 < (m : ℚ) * (2 : ℚ) ^ e) := by
  have htq : (0 : ℚ) < (t : ℚ) := by exact_mod_cast ht
  have ht' : t ≠ 0 := Nat.pos_iff_ne_zero.mp ht
  have hv32 : (2 : ℚ) ^ (-32 : ℤ) = 1 / 4294967296 := by
    rw [zpow_neg]; norm_num
  rcases Nat.eq_zero_or_pos c with hc0 | hcpos
  · subst hc0
    refine ⟨0, 0, ?_, ?_, ?_, ?_, ?_, ?_⟩
    · simp [jsDiv, ht', round64, jsMul, scale]
    · norm_num
    · intro _; norm_num
    · intro h; exact absurd h.symm ht'
    · intro _ _; norm_num
    · intro _ h; exact absurd h (lt_irrefl 0)
  · have hx1 : (c : ℚ) / (t : ℚ) ≤ 1 := by
      rw [div_le_iff₀ htq, one_mul]; exact_mod_cast hc
    have hx2 : (c : ℚ) / (t : ℚ) < (2 : ℚ) ^ ((0 : ℤ) + 1) := by
      norm_num; linarith
    obtain ⟨m1, e1, hdiv, he1, up1, lo1⟩ :=
      round64_grid c t hcpos ht 0 hx2 (by norm_num) (by norm_num)
    have hX1 : (m1 : ℚ) * (2 : ℚ) ^ e1 ≤ 1 := by
      have := up1 1 0 (by omega) (by simpa using hx1)
      simpa using this
    have hX0 : (0 : ℚ) ≤ (m1 : ℚ) * (2 : ℚ) ^ e1 := by positivity
    obtain ⟨hp2, hp⟩ := scale_spec (m1 * 100) 1 (-e1) Nat.one_pos
    have hy : ((scale (m1 * 100) 1 (-e1)).1 : ℚ) / ((scale (m1 * 100) 1 (-e1)).2 : ℚ)
        = (m1 : ℚ) * (2 : ℚ) ^ e1 * 100 := by
      rw [hp, zpow_neg]
      push_cast
      field_simp
      ring
    have hmul : jsMul (jsDiv c t) 100
        = round64 (scale (m1 * 100) 1 (-e1)).1 (scale (m1 * 100) 1 (-e1)).2 := by
      unfold jsDiv
      rw [if_neg ht', hdiv]
      rfl
    -- facts about the rounded quotient
    have hXt : c = t → (1 : ℚ) ≤ (m1 : ℚ) * (2 : ℚ) ^ e1 := by
      intro hct
      have hx : (1 : ℚ) * (2 : ℚ) ^ (0 : ℤ) ≤ (c : ℚ) / (t : ℚ) := by
        rw [hct, div_self (ne_of_gt htq)]; norm_num
      have := lo1 1 0 (by omega) (by exact_mod_cast hx)
      simpa using this
    have hXlt : t < 2 ^ 32 → c < t →
        (m1 : ℚ) * (2 : ℚ) ^ e1 ≤ (4294967295 : ℚ) * (2 : ℚ) ^ (-32 : ℤ) := by
      intro ht32 hlt
      have hnat : c * 4294967296 ≤ 4294967295 * t := by
        have : t < 4294967296 := by simpa using ht32
        omega
      have hx : (c : ℚ) / (t : ℚ) ≤ ((4294967295 : ℕ) : ℚ) * (2 : ℚ) ^ (-32 : ℤ) := by
        rw [hv32, div_le_iff₀ htq]
        have : (c : ℚ) * 4294967296 ≤ 4294967295 * (t : ℚ) := by exact_mod_cast hnat
        push_cast
        linarith
      have := up1 4294967295 (-32) (by omega) hx
      exact_mod_cast this
    have hXpos : t < 2 ^ 32 → 0 < c →
        (2 : ℚ) ^ (-32 : ℤ) ≤ (m1 : ℚ) * (2 : ℚ) ^ e1 := by
      intro ht32 _
      have hnat : t ≤ c * 4294967296 := by
        have : t < 4294967296 := by simpa using ht32
        omega
      have hx : ((1 : ℕ) : ℚ) * (2 : ℚ) ^ (-32 : ℤ) ≤ (c : ℚ) / (t : ℚ) := by
        rw [hv32, le_div_iff₀ htq]
        have : (t : ℚ) ≤ (c : ℚ) * 4294967296 := by exact_mod_cast hnat
        push_cast
        linarith
      have := lo1 1 (-32) (by omega) hx
      simpa using this
    rw [hmul]
    rcases Nat.eq_zero_or_pos (scale (m1 * 100) 1 (-e1)).1 with hp0 | hppos
    · have hX : (m1 : ℚ) * (2 : ℚ) ^ e1 = 0 := by
        rw [hp0] at hy
        simp only [Nat.cast_zero, zero_div] at hy
        linarith
      refine ⟨0, 0, ?_, ?_, ?_, ?_, ?_, ?_⟩
      · rw [hp0]; simp [round64]
      · norm_num
      · intro _; norm_num
      · intro hct
        have := hXt hct
        rw [hX] at this
        norm_num at this
      · intro _ _; norm_num
      · intro ht32 hcp
        have := hXpos ht32 hcp
        rw [hX, hv32] at this
        norm_num at this
    · have hybound : ((scale (m1 * 100) 1 (-e1)).1 : ℚ) / ((scale (m1 * 100) 1 (-e1)).2 : ℚ)
          < (2 : ℚ) ^ ((6 : ℤ) + 1) := by
        rw [hy]
        have h128 : (2 : ℚ) ^ ((6 : ℤ) + 1) = 128 := by norm_num
        rw [h128]
        linarith
      obtain ⟨m2, e2, hres, he2, up2, lo2⟩ :=
        round64_grid _ _ hppos hp2 6 hybound (by norm_num) (by norm_num)
      rw [hy] at up2 lo2
      refine ⟨m2, e2, hres, ?_, ?_, ?_, ?_, ?_⟩
      · have := up2 100 0 (by omega) (by norm_num; linarith)
        simpa using this
      · intro h0; omega
      · intro hct
        have h1 := hXt hct
        have hup := up2 100 0 (by omega) (by norm_num; linarith)
        have hlo := lo2 100 0 (by omega) (by norm_num; linarith)
        simp only [zpow_zero, mul_one, Nat.cast_ofNat] at hup hlo
        exact le_antisymm hup hlo
      · intro ht32 hlt
        have h1 := hXlt ht32 hlt
        have hup := up2 429496729500 (-32) (by omega) (by
          rw [hv32] at h1 ⊢
          push_cast
          linarith)
        rw [hv32] at hup
        have h2 : ((429496729500 : ℕ) : ℚ) * (1 / 4294967296) < 100 := by norm_num
        linarith
      · intro ht32 hcp
        have h1 := hXpos ht32 hcp
        have hlo := lo2 100 (-32) (by omega) (by
          rw [hv32] at h1 ⊢
          push_cast
          linarith)
        rw [hv32] at hlo
        have h2 : (0 : ℚ) < ((100 : ℕ) : ℚ) * (1 / 4294967296) := by norm_num
        linarith

/-! ## Order and sums in `branchCoverageByLine` -/

theorem lineStats_perm (xs ys : List ℕ) (h : xs.Perm ys) : lineStats xs = lineStats ys := by
  have h1 : xs.length = ys.length := h.length_eq
  have h2 : (xs.filter (fun item => decide (item > 0))).length
      = (ys.filter (fun item => decide (item > 0))).length := (h.filter _).length_eq
  unfold lineStats
  simp only [h1, h2]

theorem pooled_perm (fc fc' : FileCoverage) (hbm : fc'.branchMap.Perm fc.branchMap)
    (hb : ∀ kv ∈ fc.branchMap,
      ((fc'.b.lookup kv.1).getD []).Perm ((fc.b.lookup kv.1).getD [])) (L : ℕ) :
    (pooled fc' L).Perm (pooled fc L) := by
  unfold pooled
  have h1 := List.Perm.flatMap_right (fun kv => (fc'.b.lookup kv.1).getD [])
    (hbm.filter (fun kv => decide (kv.2.line = L)))
  refine h1.trans (List.Perm.flatMap_left _ ?_)
  intro kv hkv
  exact hb kv (List.mem_of_mem_filter hkv)

/-- C18: `branchCoverageByLine` depends only on the multiset of outcomes pooled per line.
If a record `fc'` lists the branch ids of `fc` in another order and holds, for every branch
id, a permutation of its hit array, then the two results have the same entry (covered, total
and coverage) at every line, and the same lines. -/
theorem branchCoverageByLine_order_irrelevant (fc fc' : FileCoverage)
    (hbm : fc'.branchMap.Perm fc.branchMap)
    (hb : ∀ kv ∈ fc.branchMap, ∃ arr arr', fc.b.lookup kv.1 = some arr ∧
      fc'.b.lookup kv.1 = some arr' ∧ arr'.Perm arr) :
    (∀ L : ℕ, (branchCoverageByLine fc').lookup L = (branchCoverageByLine fc).lookup L) ∧
    (∀ L : ℕ, L ∈ (branchCoverageByLine fc').map Prod.fst ↔
      L ∈ (branchCoverageByLine fc).map Prod.fst) := by
  have hlook : ∀ L : ℕ,
      (branchCoverageByLine fc').lookup L = (branchCoverageByLine fc).lookup L := by
    intro L
    have hb' : ∀ kv ∈ fc.branchMap,
        ((fc'.b.lookup kv.1).getD []).Perm ((fc.b.lookup kv.1).getD []) := by
      intro kv hkv
      obtain ⟨arr, arr', h1, h2, hp⟩ := hb kv hkv
      rw [h1, h2]
      exact hp
    rw [lookup_branchCoverageByLine, lookup_branchCoverageByLine,
      lineStats_perm _ _ (pooled_perm fc fc' hbm hb' L)]
    have hany : fc'.branchMap.any (fun kv => decide (kv.2.line = L))
        = fc.branchMap.any (fun kv => decide (kv.2.line = L)) := by
      rw [Bool.eq_iff_iff, any_line_iff, any_line_iff]
      constructor
      · rintro ⟨kv, hkv, hl⟩
        exact ⟨kv, hbm.mem_iff.mp hkv, hl⟩
      · rintro ⟨kv, hkv, hl⟩
        exact ⟨kv, hbm.mem_iff.mpr hkv, hl⟩
    rw [hany]
  refine ⟨hlook, ?_⟩
  intro L
  rw [mem_keys_iff_lookup_isSome, mem_keys_iff_lookup_isSome, hlook L]


/-- C18, for the example record and a reordering of it. -/
theorem branchCoverageByLine_order_irrelevant_witness :
    permutedExampleRecord.branchMap.Perm exampleRecord.branchMap ∧
    (∀ kv ∈ exampleRecord.branchMap, ∃ arr arr', exampleRecord.b.lookup kv.1 = some arr ∧
      permutedExampleRecord.b.lookup kv.1 = some arr' ∧ arr'.Perm arr) ∧
    (branchCoverageByLine permutedExampleRecord).lookup 5
      = (branchCoverageByLine exampleRecord).lookup 5 := by
  have hbm : permutedExampleRecord.branchMap.Perm exampleRecord.branchMap := by decide
  have hb : ∀ kv ∈ exampleRecord.branchMap, ∃ arr arr',
      exampleRecord.b.lookup kv.1 = some arr ∧
      permutedExampleRecord.b.lookup kv.1 = some arr' ∧ arr'.Perm arr := by
    intro kv hkv
    simp only [exampleRecord, List.mem_cons, List.mem_singleton, List.not_mem_nil,
      or_false] at hkv
    rcases hkv with rfl | rfl | rfl
    · exact ⟨[1, 0], [0, 1], rfl, rfl, by decide⟩
    · exact ⟨[2], [2], rfl, rfl, by decide⟩
    · exact ⟨[0, 0], [0, 0], rfl, rfl, by decide⟩
  exact ⟨hbm, hb,
    (branchCoverageByLine_order_irrelevant exampleRecord permutedExampleRecord hbm hb).1 5⟩

theorem sum_setProp {f : List ℕ → ℕ} (o : List (ℕ × List ℕ)) (k : ℕ) (v : List ℕ)
    (hf : f [] = 0) :
    ((setProp o k v).map (fun kd => f kd.2)).sum + f ((o.lookup k).getD [])
      = (o.map (fun kd => f kd.2)).sum + f v := by
  induction o with
  | nil => simp [setProp, hf]
  | cons hd tl ih =>
    obtain ⟨k', v'⟩ := hd
    by_cases h : k' = k
    · subst h
      simp only [setProp, if_true, List.map_cons, List.sum_cons, List.lookup_cons,
        beq_self_eq_true, Option.getD_some]
      omega
    · have h' : (k == k') = false := by simpa using fun e => h e.symm
      simp only [setProp, h, if_false, List.map_cons, List.sum_cons, List.lookup_cons, h']
      omega

theorem sum_poolBranch {f : List ℕ → ℕ} (branches : List (String × List ℕ))
    (ret : List (ℕ × List ℕ)) (kv : String × BranchMeta) (hf : f [] = 0)
    (hadd : ∀ xs ys, f (xs ++ ys) = f xs + f ys) :
    ((poolBranch branches ret kv).map (fun kd => f kd.2)).sum
      = (ret.map (fun kd => f kd.2)).sum + f ((branches.lookup kv.1).getD []) := by
  unfold poolBranch
  have h1 := sum_setProp (f := f) ret kv.2.line ((ret.lookup kv.2.line).getD []) hf
  have h2 := sum_setProp (f := f) (setProp ret kv.2.line ((ret.lookup kv.2.line).getD []))
    kv.2.line ((ret.lookup kv.2.line).getD [] ++ (branches.lookup kv.1).getD []) hf
  simp only [lookup_setProp_self, Option.getD_some, hadd] at h2 ⊢
  omega

theorem sum_foldl_poolBranch {f : List ℕ → ℕ} (branches : List (String × List ℕ))
    (bm : List (String × BranchMeta)) (acc : List (ℕ × List ℕ)) (hf : f [] = 0)
    (hadd : ∀ xs ys, f (xs ++ ys) = f xs + f ys) :
    (((bm.foldl (poolBranch branches) acc)).map (fun kd => f kd.2)).sum
      = (acc.map (fun kd => f kd.2)).sum
        + (bm.map (fun kv => f ((branches.lookup kv.1).getD []))).sum := by
  induction bm generalizing acc with
  | nil => simp
  | cons kv rest ih =>
    rw [List.foldl_cons, ih, sum_poolBranch branches acc kv hf hadd, List.map_cons,
      List.sum_cons]
    omega

/-- C20: when every branch id of `branchMap` has a hit array in `b`, the totals of the
entries returned by `branchCoverageByLine` sum to the summed length of the hit arrays of the
branch ids of `branchMap`, and the covered counts sum to the number of hit counts above 0 in
those arrays. -/
theorem branchCoverageByLine_sums (fc : FileCoverage) (hits : String → List ℕ)
    (h : ∀ kv ∈ fc.branchMap, fc.b.lookup kv.1 = some (hits kv.1)) :
    ((branchCoverageByLine fc).map (fun p => p.2.total)).sum
      = (fc.branchMap.map (fun kv => (hits kv.1).length)).sum ∧
    ((branchCoverageByLine fc).map (fun p => p.2.covered)).sum
      = (fc.branchMap.map
          (fun kv => (hits kv.1).countP (fun item => decide (item > 0)))).sum := by
  have hget : ∀ kv ∈ fc.branchMap, (fc.b.lookup kv.1).getD [] = hits kv.1 := by
    intro kv hkv
    rw [h kv hkv]
    rfl
  constructor
  · have hs := sum_foldl_poolBranch (f := List.length) fc.b fc.branchMap [] rfl
      (fun xs ys => List.length_append xs ys)
    unfold branchCoverageByLine
    simp only [List.map_map, Function.comp_def, lineStats]
    rw [hs]
    simp only [List.map_nil, List.sum_nil, Nat.zero_add]
    congr 1
    exact List.map_congr_left (fun kv hkv => by rw [hget kv hkv])
  · have hs := sum_foldl_poolBranch
      (f := fun xs => (xs.filter (fun item => decide (item > 0))).length) fc.b fc.branchMap []
      rfl (fun xs ys => by simp [List.filter_append])
    unfold branchCoverageByLine
    simp only [List.map_map, Function.comp_def, lineStats]
    rw [hs]
    simp only [List.map_nil, List.sum_nil, Nat.zero_add]
    congr 1
    exact List.map_congr_left (fun kv hkv => by
      rw [hget kv hkv, List.countP_eq_length_filter])

/-- C20, for the example record: totals 3 + 2 = 5 outcomes, 2 of them covered. -/
theorem branchCoverageByLine_sums_witness :
    (∀ kv ∈ exampleRecord.branchMap,
      exampleRecord.b.lookup kv.1 = some ((exampleRecord.b.lookup kv.1).getD [])) ∧
    (((branchCoverageByLine exampleRecord).map (fun p => p.2.total)).sum
      = (exampleRecord.branchMap.map
          (fun kv => ((exampleRecord.b.lookup kv.1).getD []).length)).sum ∧
    ((branchCoverageByLine exampleRecord).map (fun p => p.2.covered)).sum
      = (exampleRecord.branchMap.map
          (fun kv => ((exampleRecord.b.lookup kv.1).getD []).countP
            (fun item => decide (item > 0)))).sum) ∧
    ((branchCoverageByLine exampleRecord).map (fun p => p.2.total)).sum = 5 ∧
    ((branchCoverageByLine exampleRecord).map (fun p => p.2.covered)).sum = 2 :=
  ⟨by decide,
    branchCoverageByLine_sums exampleRecord (fun k => (exampleRecord.b.lookup k).getD [])
      (by decide),
    by decide, by decide⟩

/-! ## Bounds of the coverage percentage -/

theorem covered_eq_total_iff (xs : List ℕ) :
    (lineStats xs).covered = (lineStats xs).total ↔ ∀ x ∈ xs, 0 < x := by
  show (xs.filter _).length = xs.length ↔ _
  rw [List.filter_length_eq_length]
  simp

theorem covered_eq_zero_iff (xs : List ℕ) :
    (lineStats xs).covered = 0 ↔ ∀ x ∈ xs, ¬ 0 < x := by
  show (xs.filter _).length = 0 ↔ _
  rw [List.length_eq_zero, List.filter_eq_nil_iff]
  simp

/-- C19: every entry returned by `branchCoverageByLine` has 0 ≤ covered ≤ total, and when
total > 0 its coverage is a finite number between 0 and 100; it is 100 when every outcome
pooled for the line has a hit count above 0 and 0 when none has, and for a pooled array of a
length that JavaScript allows (below `2 ^ 32`) only then. -/
theorem coverage_between_0_and_100 (fc : FileCoverage) (L : ℕ) (e : LineBranchStats)
    (he : (branchCoverageByLine fc).lookup L = some e) :
    0 ≤ e.covered ∧ e.covered ≤ e.total ∧
    (0 < e.total → ∃ v : ℚ, e.coverage.toRat? = some v ∧ 0 ≤ v ∧ v ≤ 100 ∧
      ((∀ x ∈ pooled fc L, 0 < x) → v = 100) ∧
      ((∀ x ∈ pooled fc L, ¬ 0 < x) → v = 0) ∧
      (e.total < 2 ^ 32 →
        (v = 100 ↔ ∀ x ∈ pooled fc L, 0 < x) ∧ (v = 0 ↔ ∀ x ∈ pooled fc L, ¬ 0 < x))) := by
  rw [lookup_branchCoverageByLine] at he
  split at he
  · have hE : e = lineStats (pooled fc L) := (Option.some.inj he).symm
    subst hE
    have hle : (lineStats (pooled fc L)).covered ≤ (lineStats (pooled fc L)).total :=
      List.length_filter_le _ _
    refine ⟨Nat.zero_le _, hle, ?_⟩
    intro hpos
    obtain ⟨m, ex, hfin, h100, h0, ht, hlt, hgt⟩ := percentage_bounds _ _ hle hpos
    have hcov : (lineStats (pooled fc L)).coverage = JSNumber.finite m ex := hfin
    have hall := covered_eq_total_iff (pooled fc L)
    have hnone := covered_eq_zero_iff (pooled fc L)
    refine ⟨(m : ℚ) * (2 : ℚ) ^ ex, by rw [hcov]; rfl, by positivity, h100, ?_, ?_, ?_⟩
    · intro h
      exact ht (hall.mpr h)
    · intro h
      exact h0 (hnone.mpr h)
    · intro hbound
      constructor
      · constructor
        · intro hv
          apply hall.mp
          by_contra hne
          have hlt' := hlt hbound (lt_of_le_of_ne hle hne)
          rw [hv] at hlt'
          exact absurd hlt' (lt_irrefl _)
        · intro h
          exact ht (hall.mpr h)
      · constructor
        · intro hv
          apply hnone.mp
          by_contra hne
          have hgt' := hgt hbound (Nat.pos_of_ne_zero hne)
          rw [hv] at hgt'
          exact absurd hgt' (lt_irrefl _)
        · intro h
          exact h0 (hnone.mpr h)
  · exact absurd he (by simp)

/-- C19, at line 5 of the example record: 2 of 3 outcomes covered, coverage strictly between
0 and 100. -/
theorem coverage_between_0_and_100_witness :
    (branchCoverageByLine exampleRecord).lookup 5
      = some ⟨2, 3, .finite 4691249611844266 (-46)⟩ ∧
    2 ≤ 3 ∧ 0 < 3 ∧ 3 < 2 ^ 32 ∧
    ∃ v : ℚ, (JSNumber.finite 4691249611844266 (-46)).toRat? = some v ∧ 0 ≤ v ∧ v ≤ 100 ∧
      (v = 100 ↔ ∀ x ∈ pooled exampleRecord 5, 0 < x) ∧
      (v = 0 ↔ ∀ x ∈ pooled exampleRecord 5, ¬ 0 < x) := by
  have h := coverage_between_0_and_100 exampleRecord 5
    ⟨2, 3, .finite 4691249611844266 (-46)⟩ (by decide)
  obtain ⟨v, hv, h0, h100, -, -, hiff⟩ := h.2.2 (by decide)
  exact ⟨by decide, by decide, by decide, by decide, v, hv, h0, h100, hiff (by decide)⟩

/-! ## The order of the walk -/

theorem walk_append (ext : Externals) (collector : Collector) (root : String) (node : Node)
    (level : ℕ) (w : Writer) :
    walk ext collector node w (level + 1) root = w ++ walk ext collector node [] (level + 1) root := by
  obtain ⟨ls, -, e⟩ := walk_succ_lines ext collector root node level
  rw [e w, e []]
  simp

theorem addFileStats_append (ext : Externals) (node : Node) (fc : FileCoverage) (w : Writer)
    (root : String) : addFileStats ext node fc w root = w ++ addFileStats ext node fc [] root := by
  rw [addFileStats_eq, addFileStats_eq]
  simp

theorem foldl_addFileStats_eq (ext : Externals) (collector : Collector) (root : String)
    (files : List Node) (w : Writer) :
    files.foldl (fun writer child =>
        addFileStats ext child (collector.fileCoverageFor child.fullPath) writer root) w
      = w ++ files.flatMap (fileBlock ext collector root) := by
  induction files generalizing w with
  | nil => simp
  | cons f rest ih =>
    rw [List.foldl_cons, ih, addFileStats_append, List.flatMap_cons, List.append_assoc]
    rfl

theorem walkDirs_eq_flatMap (ext : Externals) (collector : Collector) (root : String)
    (level : ℕ) (children : List Node) (w : Writer) :
    walkDirs ext collector children w (level + 1) root =
      w ++ (children.filter (fun child => child.kind == "dir")).flatMap
        (fun d => walk ext collector d [] (level + 1) root) := by
  induction children generalizing w with
  | nil => simp [walkDirs]
  | cons child rest ih =>
    rw [walkDirs]
    by_cases hk : child.kind = "dir"
    · rw [if_pos hk, ih, walk_append]
      simp [List.filter_cons, hk, List.flatMap_cons]
    · rw [if_neg hk, ih]
      simp [List.filter_cons, hk]

/-- The lines written by a call of `walk` below the root: the blocks of the node's own files,
then the lines of the calls on its directory children, in children order. -/
theorem walk_succ_eq (ext : Externals) (collector : Collector) (root : String) (node : Node)
    (level : ℕ) (w : Writer) :
    walk ext collector node w (level + 1) root =
      w ++ ((ownFiles node).flatMap (fileBlock ext collector root) ++
        (dirChildren node).flatMap (fun d => walk ext collector d [] (level + 2) root)) := by
  obtain ⟨k, fp, pm, children⟩ := node
  cases pm with
  | false =>
    simp [walk, walkDirs_eq_flatMap, ownFiles, Node.packageMetrics, dirChildren, Node.children]
  | true =>
    simp [walk, walkDirs_eq_flatMap, foldl_addFileStats_eq, ownFiles, Node.packageMetrics,
      dirChildren, fileChildren, Node.children]

/-- The lines written by the call of `walk` at the root. -/
theorem walk_zero_eq (ext : Externals) (collector : Collector) (root : String) (node : Node)
    (w : Writer) :
    walk ext collector node w 0 root =
      w ++ coverageOpen :: (((ownFiles node).flatMap (fileBlock ext collector root) ++
        (dirChildren node).flatMap (fun d => walk ext collector d [] 1 root)) ++
          [coverageClose]) := by
  obtain ⟨k, fp, pm, children⟩ := node
  cases pm with
  | false =>
    simp [walk, walkDirs_eq_flatMap, ownFiles, Node.packageMetrics, dirChildren, Node.children,
      println]
  | true =>
    simp [walk, walkDirs_eq_flatMap, foldl_addFileStats_eq, ownFiles, Node.packageMetrics,
      dirChildren, fileChildren, Node.children, println]


mutual
/-- Below the root, `walk` writes the blocks of the emitted files, in order, and nothing
else. -/
theorem walk_succ_eq_emitted (ext : Externals) (collector : Collector) (root : String) :
    (node : Node) → (level : ℕ) →
      walk ext collector node [] (level + 1) root =
        (emittedFiles node).flatMap (fileBlock ext collector root)
  | .mk k fp pm children, level => by
    have h := dirs_eq_emitted ext collector root children (level + 1)
    rw [walk_succ_eq, List.nil_append]
    simp only [dirChildren, Node.children]
    rw [h]
    simp [emittedFiles, visited, List.flatMap_append]
/-- The calls of `walk` on the directory children write the blocks of the files emitted from
them. -/
theorem dirs_eq_emitted (ext : Externals) (collector : Collector) (root : String) :
    (children : List Node) → (level : ℕ) →
      (children.filter (fun child => child.kind == "dir")).flatMap
          (fun d => walk ext collector d [] (level + 1) root) =
        ((visitedDirs children).flatMap ownFiles).flatMap (fileBlock ext collector root)
  | [], _ => by simp [visitedDirs]
  | child :: rest, level => by
    have h1 := walk_succ_eq_emitted ext collector root child level
    have h2 := dirs_eq_emitted ext collector root rest level
    by_cases hk : child.kind = "dir"
    · simp only [List.filter_cons, hk, beq_self_eq_true, if_true, List.flatMap_cons, visitedDirs,
        List.flatMap_append]
      rw [h1, h2]
      rfl
    · simp only [List.filter_cons, hk, visitedDirs, if_false]
      have hb : (child.kind == "dir") = false := by simpa using hk
      simp only [hb]
      exact h2
end

/-- At the root `walk` writes the opening tag, the blocks of the emitted files, in order,
and the closing tag. -/
theorem walk_zero_eq_emitted (ext : Externals) (collector : Collector) (root : String)
    (node : Node) (w : Writer) :
    walk ext collector node w 0 root =
      w ++ coverageOpen :: ((emittedFiles node).flatMap (fileBlock ext collector root) ++
        [coverageClose]) := by
  rw [walk_zero_eq]
  obtain ⟨k, fp, pm, children⟩ := node
  have h := dirs_eq_emitted ext collector root children 0
  simp only [dirChildren, Node.children]
  rw [h]
  simp [emittedFiles, visited, List.flatMap_append]

theorem ownFiles_of_filesHavePackageMetrics (k fp : String) (pm : Bool) (children : List Node)
    (h : (children.all (fun child => child.kind == "dir") || pm) = true) :
    ownFiles (.mk k fp pm children) = children.filter (fun child => child.kind != "dir") := by
  cases pm with
  | true => simp [ownFiles, Node.packageMetrics, fileChildren, Node.children]
  | false =>
    simp only [Bool.or_false, List.all_eq_true] at h
    simp only [ownFiles, Node.packageMetrics, Bool.false_eq_true, if_false]
    symm
    rw [List.filter_eq_nil_iff]
    intro c hc
    have := h c hc
    simpa using this

mutual
/-- In a summary tree whose directories with files carry `packageMetrics`, the emitted files
are the file nodes of the tree, each once. -/
theorem emittedFiles_perm_allFiles :
    (node : Node) → node.kind = "dir" → isSummaryTree node = true →
      filesHavePackageMetrics node = true → (emittedFiles node).Perm (allFiles node)
  | .mk k fp pm children, hk, hs, hp => by
    have hk' : k = "dir" := hk
    subst hk'
    simp only [isSummaryTree, if_true, Bool.true_and] at hs
    simp only [filesHavePackageMetrics, if_true, Bool.and_eq_true] at hp
    have h := forest_perm_allFiles children hs hp.2
    simp only [emittedFiles, visited, List.flatMap_cons, allFiles, if_true]
    rw [ownFiles_of_filesHavePackageMetrics _ _ _ _ hp.1]
    exact h
/-- The same for a list of trees: their file roots together with the files emitted from their
directory roots are the file nodes of the list. -/
theorem forest_perm_allFiles :
    (children : List Node) → isSummaryForest children = true →
      forestHasPackageMetrics children = true →
      (children.filter (fun child => child.kind != "dir") ++
        (visitedDirs children).flatMap ownFiles).Perm (allFilesOfList children)
  | [], _, _ => by simp [visitedDirs, allFilesOfList]
  | child :: rest, hs, hp => by
    simp only [isSummaryForest, Bool.and_eq_true] at hs
    simp only [forestHasPackageMetrics, Bool.and_eq_true] at hp
    have h2 := forest_perm_allFiles rest hs.2 hp.2
    by_cases hk : child.kind = "dir"
    · have h1 := emittedFiles_perm_allFiles child hk hs.1 hp.1
      have hb : (child.kind != "dir") = false := by simp [hk]
      simp only [List.filter_cons, hb, visitedDirs, hk, if_true, List.flatMap_append,
        allFilesOfList, Bool.false_eq_true, if_false]
      have h3 : (List.filter (fun child => child.kind != "dir") rest ++
          ((visited child).flatMap ownFiles ++ (visitedDirs rest).flatMap ownFiles)).Perm
          ((visited child).flatMap ownFiles ++
            (List.filter (fun child => child.kind != "dir") rest ++
              (visitedDirs rest).flatMap ownFiles)) := by
        rw [← List.append_assoc, ← List.append_assoc]
        exact List.Perm.append_right _ List.perm_append_comm
      exact h3.trans (List.Perm.append h1 h2)
    · have hb : (child.kind != "dir") = true := by simp [hk]
      have hfil : List.filter (fun child => child.kind != "dir") (child :: rest)
          = child :: List.filter (fun child => child.kind != "dir") rest := by
        rw [List.filter_cons, if_pos hb]
      have hvis : visitedDirs (child :: rest) = visitedDirs rest := by
        rw [visitedDirs, if_neg hk]
      have hall : allFiles child = [child] := by
        obtain ⟨k, fp, pm, cs⟩ := child
        have hk' : ¬ k = "dir" := hk
        have hleaf : cs = [] := by
          have := hs.1
          simp only [isSummaryTree, hk', if_false, Bool.and_eq_true,
            List.isEmpty_eq_true] at this
          exact this.1
        subst hleaf
        simp [allFiles, hk', allFilesOfList]
      rw [hfil, hvis, allFilesOfList, hall]
      exact List.Perm.cons _ h2
end

/-! ## Counting `<file>` blocks -/

theorem lineToCover_data (bbl : List (ℕ × LineBranchStats)) (kv : ℕ × ℕ) :
    ∃ rest, (lineToCover bbl kv).data = "\t\t<lineToCover".data ++ rest := by
  unfold lineToCover
  simp only
  split
  · refine ⟨(attr "lineNumber" kv.1).data ++
      ((attr "covered" (if kv.2 = 0 then false else true)).data ++
        ((attr "branch" false).data ++ "/>".data)), ?_⟩
    rw [String.data_append, String.data_append, String.data_append, String.data_append]
    simp only [List.append_assoc]
  · rename_i d _
    refine ⟨(attr "lineNumber" kv.1).data ++
      ((attr "covered" (if kv.2 = 0 then false else true)).data ++
        ((attr "branch" true).data ++ ((attr "branchesToCover" d.total).data ++
          ((attr "coveredBranches" d.covered).data ++ "/>".data)))), ?_⟩
    rw [String.data_append, String.data_append, String.data_append, String.data_append,
      String.data_append, String.data_append]
    simp only [List.append_assoc]

theorem fileBlock_eq (ext : Externals) (collector : Collector) (root : String) (f : Node) :
    fileBlock ext collector root f =
      ("\t<file" ++ attr "path" (ext.relative root f.fullPath) ++ ">") ::
        ((ext.incrementIgnoredTotals (collector.fileCoverageFor f.fullPath)).l.map
          (lineToCover (branchCoverageByLine
            (ext.incrementIgnoredTotals (collector.fileCoverageFor f.fullPath))))
          ++ ["\t</file>"]) := by
  unfold fileBlock
  rw [addFileStats_eq, List.nil_append]

theorem fileOpenCount_fileBlock (ext : Externals) (collector : Collector) (root : String)
    (f : Node) : fileOpenCount (fileBlock ext collector root f) = 1 := by
  rw [fileBlock_eq]
  unfold fileOpenCount
  rw [List.countP_cons_of_pos]
  · rw [List.countP_append, List.countP_eq_zero.mpr, List.countP_eq_zero.mpr]
    · intro s hs
      rw [List.mem_singleton] at hs
      subst hs
      decide
    · intro s hs
      obtain ⟨kv, -, rfl⟩ := List.mem_map.mp hs
      obtain ⟨rest, hd⟩ := lineToCover_data
        (branchCoverageByLine (ext.incrementIgnoredTotals (collector.fileCoverageFor f.fullPath))) kv
      rw [hd]
      intro hcon
      have hcon' := of_decide_eq_true hcon
      have h2 : "\t<file".data <+: "\t\t<lineToCover".data :=
        List.prefix_of_prefix_length_le hcon' (List.prefix_append _ _) (by decide)
      exact absurd h2 (by decide)
  · simp only [String.data_append, List.append_assoc, decide_eq_true_eq]
    exact List.prefix_append _ _

theorem count_close_fileBlock (ext : Externals) (collector : Collector) (root : String)
    (f : Node) : (fileBlock ext collector root f).count "\t</file>" = 1 := by
  rw [fileBlock_eq, List.count_cons, List.count_append]
  have h1 : List.count "\t</file>" (List.map
      (lineToCover (branchCoverageByLine
        (ext.incrementIgnoredTotals (collector.fileCoverageFor f.fullPath))))
      (ext.incrementIgnoredTotals (collector.fileCoverageFor f.fullPath)).l) = 0 := by
    apply List.count_eq_zero_of_not_mem
    intro hs
    obtain ⟨kv, -, he⟩ := List.mem_map.mp hs
    obtain ⟨rest, hd⟩ := lineToCover_data
      (branchCoverageByLine (ext.incrementIgnoredTotals (collector.fileCoverageFor f.fullPath))) kv
    rw [he] at hd
    have h2 : "\t\t".data <+: "\t</file>".data := by
      rw [hd]
      exact ⟨"<lineToCover".data ++ rest, by simp⟩
    exact absurd h2 (by decide)
  have h2 : ¬ ("\t<file" ++ attr "path" (ext.relative root f.fullPath) ++ ">" = "\t</file>") := by
    intro he
    have hd := congrArg String.data he
    rw [String.data_append, String.data_append, List.append_assoc] at hd
    have h3 : "\t<file".data <+: "\t</file>".data := by
      rw [← hd]; exact List.prefix_append _ _
    exact absurd h3 (by decide)
  rw [h1]
  simp [h2]

theorem fileOpenCount_flatMap (ext : Externals) (collector : Collector) (root : String)
    (files : List Node) :
    fileOpenCount (files.flatMap (fileBlock ext collector root)) = files.length := by
  induction files with
  | nil => rfl
  | cons f rest ih =>
    have h1 := fileOpenCount_fileBlock ext collector root f
    unfold fileOpenCount at h1 ih ⊢
    rw [List.flatMap_cons, List.countP_append, h1, ih, List.length_cons, Nat.add_comm]

theorem count_close_flatMap (ext : Externals) (collector : Collector) (root : String)
    (files : List Node) :
    (files.flatMap (fileBlock ext collector root)).count "\t</file>" = files.length := by
  induction files with
  | nil => rfl
  | cons f rest ih =>
    rw [List.flatMap_cons, List.count_append, count_close_fileBlock, ih, List.length_cons,
      Nat.add_comm]

/-- The output of `walk` at the root has as many `<file>` opening lines, and as many
`</file>` lines, as there are emitted files. -/
theorem block_counts_walk_zero (ext : Externals) (collector : Collector) (root : String)
    (node : Node) :
    fileOpenCount (walk ext collector node [] 0 root) = (emittedFiles node).length ∧
    (walk ext collector node [] 0 root).count "\t</file>" = (emittedFiles node).length := by
  rw [walk_zero_eq_emitted, List.nil_append]
  constructor
  · have h := fileOpenCount_flatMap ext collector root (emittedFiles node)
    unfold fileOpenCount at h ⊢
    have h0 : decide ("\t<file".data <+: coverageOpen.data) = false := by decide
    have h1 : decide ("\t<file".data <+: coverageClose.data) = false := by decide
    rw [List.countP_cons, List.countP_append, h]
    simp [h0, h1]
  · rw [List.count_cons, List.count_append, count_close_flatMap]
    rfl

/-- C11: in a summary tree (the root is a directory, a file node is a leaf) in which each
directory that has a direct file child carries `packageMetrics`, `walk` writes the root tags
around exactly one `<file>` block per file node: the files whose blocks are written are the
file nodes of the tree, each once, so the number of `<file>` opening lines and the number of
`</file>` lines equal the number of file nodes.  For the tree with one directory containing
two files and one subdirectory containing one file, the output has three `<file>` blocks. -/
theorem walk_one_block_per_file_node :
    (∀ (ext : Externals) (collector : Collector) (root : String) (node : Node),
      node.kind = "dir" → isSummaryTree node = true → filesHavePackageMetrics node = true →
        (emittedFiles node).Perm (allFiles node) ∧
        walk ext collector node [] 0 root =
          coverageOpen :: ((emittedFiles node).flatMap (fileBlock ext collector root) ++
            [coverageClose]) ∧
        fileOpenCount (walk ext collector node [] 0 root) = (allFiles node).length ∧
        (walk ext collector node [] 0 root).count "\t</file>" = (allFiles node).length) ∧
    (∀ (ext : Externals) (collector : Collector) (root : String) (f : Node),
      ∃ rest, fileBlock ext collector root f =
        ("\t<file" ++ attr "path" (ext.relative root f.fullPath) ++ ">") :: rest) ∧
    (∀ (ext : Externals) (collector : Collector) (root : String),
      (allFiles threeFileTree).length = 3 ∧
      fileOpenCount (walk ext collector threeFileTree [] 0 root) = 3 ∧
      (walk ext collector threeFileTree [] 0 root).count "\t</file>" = 3) := by
  refine ⟨?_, ?_, ?_⟩
  · intro ext collector root node hk hs hp
    have hperm := emittedFiles_perm_allFiles node hk hs hp
    have hcount := block_counts_walk_zero ext collector root node
    have hwalk := walk_zero_eq_emitted ext collector root node []
    rw [List.nil_append] at hwalk
    exact ⟨hperm, hwalk, hcount.1.trans hperm.length_eq, hcount.2.trans hperm.length_eq⟩
  · intro ext collector root f
    exact ⟨_, fileBlock_eq ext collector root f⟩
  · intro ext collector root
    have hcount := block_counts_walk_zero ext collector root threeFileTree
    have hlen : (emittedFiles threeFileTree).length = 3 := by decide
    exact ⟨by decide, hcount.1.trans hlen, hcount.2.trans hlen⟩

/-- C11, for the three-file tree of the specification. -/
theorem walk_one_block_per_file_node_witness :
    threeFileTree.kind = "dir" ∧ isSummaryTree threeFileTree = true ∧
    filesHavePackageMetrics threeFileTree = true ∧
    fileOpenCount (walk idExternals exampleCollector threeFileTree [] 0 "/p")
      = (allFiles threeFileTree).length :=
  ⟨by decide, by decide, by decide,
    (walk_one_block_per_file_node.1 idExternals exampleCollector "/p" threeFileTree
      (by decide) (by decide) (by decide)).2.2.1⟩

/-- C12: for a root node without children, `walk` at level 0 writes exactly the two lines
`<coverage version="1">` and `</coverage>`, whatever the node carries; the function is total,
so the call does not fail. -/
theorem walk_empty_root (ext : Externals) (collector : Collector) (root : String)
    (kind fullPath : String) (packageMetrics : Bool) (w : Writer) :
    walk ext collector (.mk kind fullPath packageMetrics []) w 0 root =
      w ++ ["<coverage version=\"1\">", "</coverage>"] ∧
    walk ext collector (.mk kind fullPath packageMetrics []) [] 0 root =
      ["<coverage version=\"1\">", "</coverage>"] := by
  cases packageMetrics <;> simp [walk, walkDirs, println, coverageOpen, coverageClose]

/-- C16: a call of `walk` on a node that carries `packageMetrics` writes first the `<file>`
blocks of the node's direct file children, in children order, and then, for each directory
child in children order, everything that the call of `walk` on that child writes, which is
the blocks of the files emitted from that child's subtree.  At level 0 the root tags are
written around this. -/
theorem walk_files_before_subdirectories (ext : Externals) (collector : Collector)
    (root : String) (node : Node) (hpm : node.packageMetrics = true) :
    (∀ (level : ℕ) (w : Writer),
      walk ext collector node w (level + 1) root =
        w ++ ((fileChildren node).flatMap (fileBlock ext collector root) ++
          (dirChildren node).flatMap (fun d => walk ext collector d [] (level + 2) root))) ∧
    (∀ w : Writer,
      walk ext collector node w 0 root =
        w ++ coverageOpen :: (((fileChildren node).flatMap (fileBlock ext collector root) ++
          (dirChildren node).flatMap (fun d => walk ext collector d [] 1 root)) ++
            [coverageClose])) ∧
    (∀ (d : Node) (level : ℕ),
      walk ext collector d [] (level + 1) root =
        (emittedFiles d).flatMap (fileBlock ext collector root)) := by
  have hown : ownFiles node = fileChildren node := by
    unfold ownFiles
    rw [if_pos hpm]
  refine ⟨?_, ?_, ?_⟩
  · intro level w
    rw [walk_succ_eq, hown]
  · intro w
    rw [walk_zero_eq, hown]
  · intro d level
    exact walk_succ_eq_emitted ext collector root d level

/-- C16, for the example tree: the block of `/p/a.js` comes before the block of
`/p/lib/b.js`. -/
theorem walk_files_before_subdirectories_witness :
    exampleTree.packageMetrics = true ∧
    walk idExternals exampleCollector exampleTree [] 1 "/p" =
      [] ++ ((fileChildren exampleTree).flatMap (fileBlock idExternals exampleCollector "/p") ++
        (dirChildren exampleTree).flatMap
          (fun d => walk idExternals exampleCollector d [] 2 "/p")) :=
  ⟨by decide,
    (walk_files_before_subdirectories idExternals exampleCollector "/p" exampleTree
      (by decide)).1 0 []⟩

theorem mem_visitedDirs (children : List Node) (p : Node) :
    p ∈ visitedDirs children ↔ ∃ d ∈ children, d.kind = "dir" ∧ p ∈ visited d := by
  induction children with
  | nil => simp [visitedDirs]
  | cons c rest ih =>
    rw [visitedDirs]
    by_cases hk : c.kind = "dir"
    · rw [if_pos hk, List.mem_append, ih]
      constructor
      · rintro (h | ⟨d, hd, hdk, hp⟩)
        · exact ⟨c, List.mem_cons_self _ _, hk, h⟩
        · exact ⟨d, List.mem_cons_of_mem _ hd, hdk, hp⟩
      · rintro ⟨d, hd, hdk, hp⟩
        rcases List.mem_cons.mp hd with rfl | hd
        · exact Or.inl hp
        · exact Or.inr ⟨d, hd, hdk, hp⟩
    · rw [if_neg hk, ih]
      constructor
      · rintro ⟨d, hd, hdk, hp⟩
        exact ⟨d, List.mem_cons_of_mem _ hd, hdk, hp⟩
      · rintro ⟨d, hd, hdk, hp⟩
        rcases List.mem_cons.mp hd with rfl | hd
        · exact absurd hdk hk
        · exact ⟨d, hd, hdk, hp⟩

theorem mem_visited (node p : Node) :
    p ∈ visited node ↔ p = node ∨ ∃ d ∈ node.children, d.kind = "dir" ∧ p ∈ visited d := by
  obtain ⟨k, fp, pm, cs⟩ := node
  rw [visited, List.mem_cons, mem_visitedDirs]
  rfl

/-- C17: a call of `walk` on a node that does not carry `packageMetrics` writes no `<file>`
block of its own and only what the calls on its directory children, in children order, write.
Over the whole walk, the blocks written are those of the files `f` that are a child, of kind
other than `dir`, of a visited node that carries `packageMetrics`. -/
theorem walk_without_packageMetrics (ext : Externals) (collector : Collector)
    (root : String) (node : Node) :
    (node.packageMetrics = false →
      (∀ (level : ℕ) (w : Writer),
        walk ext collector node w (level + 1) root =
          w ++ (dirChildren node).flatMap
            (fun d => walk ext collector d [] (level + 2) root)) ∧
      (∀ w : Writer,
        walk ext collector node w 0 root =
          w ++ coverageOpen :: ((dirChildren node).flatMap
            (fun d => walk ext collector d [] 1 root) ++ [coverageClose]))) ∧
    (∀ w : Writer, walk ext collector node w 0 root =
      w ++ coverageOpen :: ((emittedFiles node).flatMap (fileBlock ext collector root) ++
        [coverageClose])) ∧
    (∀ f : Node, f ∈ emittedFiles node ↔
      ∃ p ∈ visited node, p.packageMetrics = true ∧ f ∈ p.children ∧ f.kind ≠ "dir") ∧
    (∀ p : Node, p ∈ visited node ↔
      p = node ∨ ∃ d ∈ node.children, d.kind = "dir" ∧ p ∈ visited d) := by
  refine ⟨?_, ?_, ?_, ?_⟩
  · intro hpm
    have hown : ownFiles node = [] := by
      unfold ownFiles
      rw [hpm]
      rfl
    constructor
    · intro level w
      rw [walk_succ_eq, hown]
      rfl
    · intro w
      rw [walk_zero_eq, hown]
      rfl
  · intro w
    exact walk_zero_eq_emitted ext collector root node w
  · intro f
    unfold emittedFiles
    rw [List.mem_flatMap]
    constructor
    · rintro ⟨p, hp, hf⟩
      unfold ownFiles at hf
      split at hf
      · rename_i hpm
        unfold fileChildren at hf
        rw [List.mem_filter] at hf
        exact ⟨p, hp, hpm, hf.1, by simpa using hf.2⟩
      · exact absurd hf (List.not_mem_nil _)
    · rintro ⟨p, hp, hpm, hf, hk⟩
      refine ⟨p, hp, ?_⟩
      unfold ownFiles
      rw [if_pos hpm]
      unfold fileChildren
      rw [List.mem_filter]
      exact ⟨hf, by simpa using hk⟩
  · intro p
    exact mem_visited node p


/-- C17, for a directory without `packageMetrics`: the block of its own file `/q/a.js` is not
written, the block of `/q/lib/b.js` is. -/
theorem walk_without_packageMetrics_witness :
    bareTree.packageMetrics = false ∧
    (fileChildren bareTree).map Node.fullPath = ["/q/a.js"] ∧
    (walk idExternals exampleCollector bareTree [] 0 "/q" =
      [] ++ coverageOpen :: ((dirChildren bareTree).flatMap
        (fun d => walk idExternals exampleCollector d [] 1 "/q") ++ [coverageClose])) ∧
    (emittedFiles bareTree).map Node.fullPath = ["/q/lib/b.js"] :=
  ⟨by decide, by decide,
    ((walk_without_packageMetrics idExternals exampleCollector "/q" bareTree).1
      (by decide)).2 [],
    by decide⟩

/-! ## Properties of the report object -/

/-- C13 fails on the code: `quote` puts the relative path between double quotes as it is, so
the opening line of every `<file>` block is `<file path="` followed by the unchanged path.
For a file `R&D/a"b.js` below the project root the opening tag is `<file path="R&D/a"b.js" >`,
with the ampersand and the double quote unescaped. -/
theorem file_path_written_unescaped :
    (∀ (ext : Externals) (node : Node) (fc : FileCoverage) (w : Writer) (root : String),
      (addFileStats ext node fc w root)[w.length]? =
        some ("\t<file path=\"" ++ ext.relative root node.fullPath ++ "\" >")) ∧
    posixExternals.relative "/proj" reservedPathFile.fullPath = "R&D/a\"b.js" ∧
    (addFileStats posixExternals reservedPathFile exampleRecord [] "/proj").head?
      = some "\t<file path=\"R&D/a\"b.js\" >" := by
  refine ⟨?_, by decide, by decide⟩
  intro ext node fc w root
  rw [addFileStats_eq, List.getElem?_append_right (le_refl _), Nat.sub_self,
    List.getElem?_cons_zero]
  congr 1
  apply String.ext
  simp [attr, quote, String.data_append]
  rfl

theorem count_reportDone_map_println (lines : List String) :
    (lines.map Event.println).count Event.reportDone = 0 := by
  apply List.count_eq_zero_of_not_mem
  intro h
  obtain ⟨s, -, hs⟩ := List.mem_map.mp h
  exact absurd hs (by simp)

/-- The events of a call of `writeReport`. -/
theorem writeReport_events (ext : Externals) (join : String → String → String)
    (report : SonarReport) (collector : Collector) (root : Node) :
    (writeReport ext join report collector root).2 =
      Event.writeFile (join report.dir report.file) ::
        ((walk ext collector root [] 0 report.projectRoot).map Event.println ++
          (Event.writerDone ::
            List.replicate ((report.opts.writer.getD ⟨0⟩).doneListeners + 1)
              Event.reportDone)) := rfl

/-- C14 fails on the code: every call of `writeReport` registers one more `done` listener on
the writer, and `writer.done()` calls all of them.  The report emits `done` after the last
line and after `writer.done()`, once per listener: once with the writer that `writeReport`
creates itself, and `n + 1` times with an injected writer on which earlier calls have left `n`
listeners.  A second call on a report with an injected writer emits `done` twice. -/
theorem writeReport_done_events (ext : Externals) (join : String → String → String)
    (report : SonarReport) (collector : Collector) (root : Node) :
    (writeReport ext join report collector root).2.count Event.reportDone
      = (report.opts.writer.getD ⟨0⟩).doneListeners + 1 ∧
    (writeReport ext join report collector root).1.opts.writer
      = report.opts.writer.map (fun w => ⟨w.doneListeners + 1⟩) ∧
    (writeReport ext join
      (writeReport ext join injectedWriterReport collector root).1 collector root).2.count
        Event.reportDone = 2 ∧
    (writeReport idExternals joinSegments
      (writeReport idExternals joinSegments injectedWriterReport exampleCollector
        (.mk "dir" "/proj" false [])).1 exampleCollector (.mk "dir" "/proj" false [])).2
      = [Event.writeFile "/proj/sonar-coverage.xml", Event.println "<coverage version=\"1\">",
          Event.println "</coverage>", Event.writerDone, Event.reportDone,
          Event.reportDone] := by
  have hcount : ∀ r : SonarReport,
      (writeReport ext join r collector root).2.count Event.reportDone
        = (r.opts.writer.getD ⟨0⟩).doneListeners + 1 := by
    intro r
    rw [writeReport_events, List.count_cons, List.count_append, count_reportDone_map_println,
      List.count_cons, List.count_replicate_self]
    simp
  have hstate : ∀ r : SonarReport,
      (writeReport ext join r collector root).1.opts.writer
        = r.opts.writer.map (fun w => ⟨w.doneListeners + 1⟩) := by
    intro r
    unfold writeReport
    cases hw : r.opts.writer with
    | none => simp [hw]
    | some w0 => simp
  refine ⟨hcount report, hstate report, ?_, by decide⟩
  rw [hcount, hstate]
  rfl


/-- C15 fails as stated: for the options object `{ dir: "", file: "" }` a file and a
directory are given, and the constructed report has the default file `sonar-coverage.xml` and
the working directory, not the given values. -/
theorem empty_option_replaced_by_default :
    (⟨some "", some "", none⟩ : Options).file = some "" ∧
    (SonarReport.init "/cwd" (some ⟨some "", some "", none⟩)).file ≠ "" ∧
    (SonarReport.init "/cwd" (some ⟨some "", some "", none⟩)).file = "sonar-coverage.xml" ∧
    (⟨some "", some "", none⟩ : Options).dir = some "" ∧
    (SonarReport.init "/cwd" (some ⟨some "", some "", none⟩)).dir ≠ "" ∧
    (SonarReport.init "/cwd" (some ⟨some "", some "", none⟩)).dir = "/cwd" := by
  decide

/-- C15, amended: the constructed report's file is the supplied `opts.file` when a non-empty
one is given and `sonar-coverage.xml` when none or the empty string is given; its dir is the
supplied `opts.dir` when a non-empty one is given and the process working directory when none
or the empty string is given; without an options object both are the defaults.  `writeReport`
calls `writer.writeFile` once, with the path `path.join(dir, file)`. -/
theorem report_file_and_dir (cwd : String) (opts : Options) :
    (∀ f, opts.file = some f → f ≠ "" → (SonarReport.init cwd (some opts)).file = f) ∧
    ((opts.file = none ∨ opts.file = some "") →
      (SonarReport.init cwd (some opts)).file = "sonar-coverage.xml") ∧
    (∀ d, opts.dir = some d → d ≠ "" → (SonarReport.init cwd (some opts)).dir = d) ∧
    ((opts.dir = none ∨ opts.dir = some "") → (SonarReport.init cwd (some opts)).dir = cwd) ∧
    (SonarReport.init cwd none).file = "sonar-coverage.xml" ∧
    (SonarReport.init cwd none).dir = cwd ∧
    (∀ (ext : Externals) (join : String → String → String) (collector : Collector)
        (root : Node),
      ∃ rest, (writeReport ext join (SonarReport.init cwd (some opts)) collector root).2 =
          Event.writeFile (join (SonarReport.init cwd (some opts)).dir
            (SonarReport.init cwd (some opts)).file) :: rest ∧
        ∀ p, Event.writeFile p ∉ rest) := by
  refine ⟨?_, ?_, ?_, ?_, rfl, rfl, ?_⟩
  · intro f hf hne
    simp [SonarReport.init, jsOr, hf, hne]
  · rintro (h | h) <;> simp [SonarReport.init, jsOr, h, getDefaultConfig]
  · intro d hd hne
    simp [SonarReport.init, jsOr, hd, hne]
  · rintro (h | h) <;> simp [SonarReport.init, jsOr, h]
  · intro ext join collector root
    refine ⟨_, writeReport_events ext join _ collector root, ?_⟩
    intro p hp
    rw [List.mem_append, List.mem_cons, List.mem_map] at hp
    rcases hp with ⟨s, -, hs⟩ | hp | hp
    · exact absurd hs (by simp)
    · exact absurd hp (by simp)
    · exact absurd (List.eq_of_mem_replicate hp) (by simp)

/-- C15 amended, for the options `{ dir: "out", file: "cov.xml" }`. -/
theorem report_file_and_dir_witness :
    (⟨some "out", some "cov.xml", none⟩ : Options).file = some "cov.xml" ∧
    "cov.xml" ≠ "" ∧
    (SonarReport.init "/cwd" (some ⟨some "out", some "cov.xml", none⟩)).file = "cov.xml" ∧
    (SonarReport.init "/cwd" (some ⟨none, some "cov.xml", none⟩)).dir = "/cwd" :=
  ⟨rfl, by decide,
    (report_file_and_dir "/cwd" ⟨some "out", some "cov.xml", none⟩).1 "cov.xml" rfl
      (by decide),
    (report_file_and_dir "/cwd" ⟨none, some "cov.xml", none⟩).2.2.2.1 (Or.inl rfl)⟩

end SonarCoverage
